import Mathlib

/-!
Verification development for the host-side transport layer in
`src/platforms/hosted/serial_unix.c` (framed buffered reader, writer,
endpoint resolver and opener).

The C file's operations are embedded shallowly:
  * machine integers `size_t`/`ssize_t` become `Nat`/`Int`;
  * the static read buffer plus its two cursors become the record `BufSt`;
  * the environment (what `select` and `read` would deliver at each refill)
    becomes an explicit list of `SelectOutcome` values, consumed in order;
  * each C loop becomes a step function (`seekIter`, `collectIter`)
    iterated by a fuel-indexed loop, so every definition is executable;
  * out-of-bounds accesses of the C code (which are undefined behaviour)
    are represented by the explicit result `ReadOut.ub`, and a C loop that
    can never exit is represented by `ReadOut.spin`.

A reference (flat-stream) semantics `flatRead` is defined for the
refinement/chunking-invariance claims and proved to coincide with the
buffered machine on well-formed refill sequences.
-/

/-- READ_BUFFER_LENGTH from serial_unix.c (line 41): capacity of the static
read buffer. -/
def READ_BUFFER_LENGTH : Nat := 4096

/-- Modelled from the spec: the start-of-response marker byte `REMOTE_RESP`
is defined in `remote.h`, which is not part of the sources provided; the
spec fixes it as a single-byte sentinel distinct from the end marker.  The
concrete value is irrelevant to every theorem except via computation. -/
def REMOTE_RESP : Nat := 38

/-- Modelled from the spec: the end-of-message marker byte `REMOTE_EOM`
from `remote.h` (not in the provided sources); a single-byte sentinel. -/
def REMOTE_EOM : Nat := 35

/-- The static receive-buffer state of serial_unix.c (lines 46-48):
`read_buffer`, `read_buffer_fullness` and `read_buffer_offset`. -/
structure BufSt where
  buf : List Nat
  fullness : Nat
  offset : Nat
deriving DecidableEq, Repr

/-- The initial state of the static buffer: a zero-initialised array with
both cursors at 0. -/
def initialBufState : BufSt := ⟨List.replicate READ_BUFFER_LENGTH 0, 0, 0⟩

/-- One refill's environment: what `select` reports, and — when it reports
data ready — what the subsequent `read` returns (`readResult`) and the bytes
it deposits at the start of the buffer (`data`).  A faithful transport
delivers `readResult = data.length ≤ READ_BUFFER_LENGTH` (see `evOkB`). -/
inductive SelectOutcome where
  | selErr : SelectOutcome
  | selTimeout : SelectOutcome
  | ready : Int → List Nat → SelectOutcome
deriving DecidableEq, Repr

/-- bmda_read_more_data (serial_unix.c lines 312-347).  Returns the C
function's return code together with the updated buffer state: select
failure gives -3, select timeout gives -4, a negative `read` gives -6 and
leaves the buffer counters untouched; otherwise the buffer is refilled
(`read` writes `data` over the first bytes of the array), `fullness`
becomes the byte count and `offset` becomes 0. -/
def bmda_read_more_data (ev : SelectOutcome) (b : BufSt) : Int × BufSt :=
  match ev with
  | .selErr => (-3, b)
  | .selTimeout => (-4, b)
  | .ready res data =>
    if res < 0 then (-6, b)
    else (0, ⟨data ++ b.buf.drop data.length, res.toNat, 0⟩)

/-- The refill-on-empty check shared by both loops of platform_buffer_read
(lines 356-360 and 366-370): when `offset == fullness` the next refill
outcome is consumed from the environment list.  An exhausted environment
models a transport that never delivers another byte, which the bounded wait
reports as a timeout (-4). -/
def refillIfNeeded (events : List SelectOutcome) (b : BufSt) :
    Int × List SelectOutcome × BufSt :=
  if b.offset = b.fullness then
    match events with
    | [] => (-4, [], b)
    | ev :: rest =>
      let r := bmda_read_more_data ev b
      (r.1, rest, r.2)
  else (0, events, b)

/-- State carried through the start-marker seek loop of
platform_buffer_read: the remaining refill environment, the buffer state,
and a ghost flag recording whether a byte was ever consumed from an index
at or past `fullness` (the C code reads stale array contents there). -/
structure SState where
  events : List SelectOutcome
  bst : BufSt
  overrun : Bool
deriving DecidableEq, Repr

/-- Result of one iteration of the seek loop. -/
inductive SeekStep where
  | found : SState → SeekStep
  | cont : SState → SeekStep
  | fail : Int → SState → SeekStep
  | ub : SeekStep
deriving DecidableEq, Repr

/-- One iteration of the seek loop of platform_buffer_read (lines 355-362):
refill if the buffer is exhausted (propagating a negative refill result),
then consume one byte via `read_buffer[read_buffer_offset++]`; the loop
ends when the byte is REMOTE_RESP.  Reading at an index `≥`
READ_BUFFER_LENGTH would be out of bounds in C and yields `ub`; reading a
(defined but stale) byte at an index at or past `fullness` sets the ghost
`overrun` flag. -/
def seekIter (st : SState) : SeekStep :=
  let rib := refillIfNeeded st.events st.bst
  if rib.1 < 0 then .fail rib.1 ⟨rib.2.1, rib.2.2, st.overrun⟩
  else
    let b := rib.2.2
    if READ_BUFFER_LENGTH ≤ b.offset then .ub
    else
      let byte := b.buf.getD b.offset 0
      let over := st.overrun || decide (b.fullness ≤ b.offset)
      let st2 : SState := ⟨rib.2.1, ⟨b.buf, b.fullness, b.offset + 1⟩, over⟩
      if byte = REMOTE_RESP then .found st2 else .cont st2

/-- Result of running the seek loop to completion. -/
inductive SeekOut where
  | found : SState → SeekOut
  | fail : Int → SState → SeekOut
  | ub : SeekOut
  | fuelOut : SeekOut
deriving DecidableEq, Repr

/-- The seek loop of platform_buffer_read, iterated with explicit fuel. -/
def seekLoop : Nat → SState → SeekOut
  | 0, _ => .fuelOut
  | fuel + 1, st =>
    match seekIter st with
    | .cont st2 => seekLoop fuel st2
    | .found st2 => .found st2
    | .fail c st2 => .fail c st2
    | .ub => .ub

/-- Structural worker for the inner scan of platform_buffer_read: `rem` is
the number of buffered bytes still scannable (`fullness - (rbOff + rl)`),
which bounds the loop exactly as in the C code. -/
def scanGo (buf : List Nat) (rbOff full oOff cap : Nat) : Nat → Nat → Nat
  | 0, rl => rl
  | rem + 1, rl =>
    if rbOff + rl < full ∧ oOff + rl < cap then
      if buf.getD (rbOff + rl) 0 = REMOTE_EOM then rl + 1
      else scanGo buf rbOff full oOff cap rem (rl + 1)
    else rl

/-- The inner scan of platform_buffer_read (lines 372-380): starting from
`rl`, advance while `read_buffer_offset + rl < fullness` and
`offset + rl < length`, stopping one past a REMOTE_EOM byte. -/
def scanLen (buf : List Nat) (rbOff full oOff cap rl : Nat) : Nat :=
  scanGo buf rbOff full oOff cap (full - (rbOff + rl)) rl

/-- State carried through the response-collection loop of
platform_buffer_read: environment, buffer state, ghost overrun flag, the
bytes written to the caller's destination so far (`dest`, whose length is
the loop's `offset` variable), and the destination capacity (`cap`, the
C `length` parameter). -/
structure CState where
  events : List SelectOutcome
  bst : BufSt
  overrun : Bool
  dest : List Nat
  cap : Nat
deriving DecidableEq, Repr

/-- Result of one iteration of the collection loop. -/
inductive CollectStep where
  | done : Int → List Nat → CollectStep
  | cont : CState → CollectStep
  | fail : Int → CollectStep
  | ub : CollectStep
  | spin : CollectStep
deriving DecidableEq, Repr

/-- One iteration of the collection loop of platform_buffer_read (lines
364-392).  If the destination is full the loop exits returning `length`.
Otherwise: refill if the buffer is exhausted (propagating failures), scan
for a span ending at REMOTE_EOM / capacity / end of buffered data, copy the
span, advance both cursors, and test whether the last byte written was
REMOTE_EOM — if so, overwrite it with 0 and return the byte count before
it.  A zero-length span with an empty destination makes the C code read
`buffer[(size_t)-1]`, which is undefined (`ub`); a zero-length span with no
refill leaves the state unchanged, so the C loop never exits (`spin`). -/
def collectIter (st : CState) : CollectStep :=
  if st.cap ≤ st.dest.length then .done (st.cap : Int) st.dest
  else
    let rib := refillIfNeeded st.events st.bst
    if rib.1 < 0 then .fail rib.1
    else
      let evs := rib.2.1
      let b := rib.2.2
      let rl := scanLen b.buf b.offset b.fullness st.dest.length st.cap 0
      let span := (b.buf.drop b.offset).take rl
      let b2 : BufSt := ⟨b.buf, b.fullness, b.offset + rl⟩
      if rl = 0 then
        if st.dest.length = 0 then .ub
        else if st.dest.getLastD 0 = REMOTE_EOM then
          .done ((st.dest.length - 1 : Nat) : Int) (st.dest.dropLast ++ [0])
        else if st.bst.offset = st.bst.fullness then
          .cont ⟨evs, b2, st.overrun, st.dest, st.cap⟩
        else .spin
      else
        if span.getLastD 0 = REMOTE_EOM then
          .done ((st.dest.length + rl - 1 : Nat) : Int) ((st.dest ++ span).dropLast ++ [0])
        else .cont ⟨evs, b2, st.overrun, st.dest ++ span, st.cap⟩

/-- Result of a whole platform_buffer_read call. -/
inductive ReadOut where
  | ok : Int → List Nat → ReadOut
  | err : Int → ReadOut
  | ub : ReadOut
  | spin : ReadOut
  | fuelOut : ReadOut
deriving DecidableEq, Repr

/-- The collection loop of platform_buffer_read, iterated with fuel. -/
def collectLoop : Nat → CState → ReadOut
  | 0, _ => .fuelOut
  | fuel + 1, st =>
    match collectIter st with
    | .cont st2 => collectLoop fuel st2
    | .done v d => .ok v d
    | .fail c => .err c
    | .ub => .ub
    | .spin => .spin

/-- platform_buffer_read (serial_unix.c lines 351-394) against a given
refill environment: seek the start-of-response marker (discarding what
precedes it), then collect the response into a destination of capacity
`cap`.  Returns the C return value together with the bytes written to the
destination. -/
def platform_buffer_read (fuel : Nat) (events : List SelectOutcome)
    (b : BufSt) (cap : Nat) : ReadOut :=
  match seekLoop fuel ⟨events, b, false⟩ with
  | .found st => collectLoop fuel ⟨st.events, st.bst, st.overrun, [], cap⟩
  | .fail c _ => .err c
  | .ub => .ub
  | .fuelOut => .fuelOut

/-- Result of platform_buffer_write: either the process exits with a code,
or the function returns a boolean. -/
inductive WriteOut where
  | exited : Int → WriteOut
  | ret : Bool → WriteOut
deriving DecidableEq, Repr

/-- platform_buffer_write (serial_unix.c lines 300-310): performs exactly
one transport `write` whose result is the environment value `written`; a
negative result calls `exit(-2)`, otherwise the function returns whether
the full length was written. -/
def platform_buffer_write (written : Int) (length : Nat) : WriteOut :=
  if written < 0 then .exited (-2)
  else .ret (decide (written.toNat = length))

/-! ### Endpoint resolution (serial_open and its helpers) -/

/-- Modelled from the spec: `begins_with` comes from the repository's
string utilities (`utils.h`), which are not under the provided sources;
per the spec it tests whether a device name starts with a given identity
prefix. -/
def begins_with : List Char → List Char → Bool
  | _, [] => true
  | [], _ :: _ => false
  | a :: s, b :: p => a = b && begins_with s p

/-- Modelled from the spec: `ends_with` from the repository's string
utilities (not under the provided sources); tests whether a device name
ends with a given interface suffix. -/
def ends_with (s suf : List Char) : Bool :=
  begins_with s.reverse suf.reverse

/-- Modelled from the spec: `contains_substring` from the repository's
string utilities (not under the provided sources); tests whether `needle`
occurs as a contiguous substring of `hay`. -/
def contains_substring (hay needle : List Char) : Bool :=
  (List.range (hay.length + 1)).any fun i => begins_with (hay.drop i) needle

/-- BMP_IDSTRING_BLACKSPHERE (serial_unix.c line 187). -/
def BMP_IDSTRING_BLACKSPHERE : List Char :=
  "usb-Black_Sphere_Technologies_Black_Magic_Probe".toList

/-- BMP_IDSTRING_BLACKMAGIC (serial_unix.c line 188). -/
def BMP_IDSTRING_BLACKMAGIC : List Char :=
  "usb-Black_Magic_Debug_Black_Magic_Probe".toList

/-- BMP_IDSTRING_1BITSQUARED (serial_unix.c line 189). -/
def BMP_IDSTRING_1BITSQUARED : List Char :=
  "usb-1BitSquared_Black_Magic_Probe".toList

/-- DEVICE_BY_ID (serial_unix.c line 190). -/
def DEVICE_BY_ID : List Char := "/dev/serial/by-id/".toList

/-- The fixed interface suffix of the GDB server port device name. -/
def IF00_SUFFIX : List Char := "-if00".toList

/-- device_is_bmp_gdb_port (serial_unix.c lines 194-202): the device name
must start with one of the three vendor identity strings and end with
"-if00". -/
def device_is_bmp_gdb_port (device : List Char) : Bool :=
  if begins_with device BMP_IDSTRING_BLACKSPHERE
      || begins_with device BMP_IDSTRING_BLACKMAGIC
      || begins_with device BMP_IDSTRING_1BITSQUARED then
    ends_with device IF00_SUFFIX
  else false

/-- strrchr: the index of the last occurrence of `c` in the list. -/
def strrchrPos : List Char → Char → Option Nat
  | [], _ => none
  | a :: rest, c =>
    match strrchrPos rest c with
    | some i => some (i + 1)
    | none => if a = c then some 0 else none

/-- match_serial (serial_unix.c lines 204-216): find the last underscore,
fail if there is none; the candidate serial segment runs from just past it
to five characters before the end of the device name (the "-if00" suffix);
the (partial) serial matches if it is a substring of that segment. -/
def match_serial (device serial : List Char) : Bool :=
  match strrchrPos device '_' with
  | none => false
  | some i =>
    contains_substring ((device.drop (i + 1)).take (device.length - 5 - (i + 1))) serial

/-- The device names passing the identity filter (what the listing loop of
serial_open prints as the candidate probes). -/
def gdbPorts (entries : List (List Char)) : List (List Char) :=
  entries.filter device_is_bmp_gdb_port

/-- The device names that pass the identity filter and, when a serial hint
is given, also the serial match (the `matches` counter of serial_open
counts these, and `name` keeps the last of them). -/
def gdbCandidates (entries : List (List Char)) (hint : Option (List Char)) :
    List (List Char) :=
  entries.filter fun e =>
    device_is_bmp_gdb_port e &&
      (match hint with
       | some s => match_serial e s
       | none => true)

/-- Outcome of the name-resolution part of serial_open, distinguished by
the diagnostic the C code emits on each early-return path. -/
inductive ResolveOutcome where
  | ok : List Char → ResolveOutcome
  | dirError : ResolveOutcome
  | noDeviceFound : ResolveOutcome
  | serialMismatch : List (List Char) → List Char → ResolveOutcome
  | ambiguousDevice : List (List Char) → ResolveOutcome
deriving DecidableEq, Repr

/-- The name-resolution phase of serial_open (serial_unix.c lines 218-277):
with an explicit device it is copied (truncated to the 4096-byte name
buffer); otherwise the by-id directory is enumerated (`dir = none` models
`opendir` failing), `total` counts the names passing the identity filter
and the candidates additionally pass the serial filter; zero total names is
"No Black Magic Probes found", a candidate count other than one lists the
probes and reports either a serial mismatch or an ambiguity, and exactly
one candidate yields the path of that device (entry name truncated to fit
after the directory prefix). -/
def serial_open_resolve (optDevice : Option (List Char))
    (hint : Option (List Char)) (dir : Option (List (List Char))) :
    ResolveOutcome :=
  match optDevice with
  | some dev => .ok (dev.take 4095)
  | none =>
    match dir with
    | none => .dirError
    | some entries =>
      let total := entries.countP device_is_bmp_gdb_port
      let ms := gdbCandidates entries hint
      if total = 0 then .noDeviceFound
      else if ms.length ≠ 1 then
        match hint with
        | some s => .serialMismatch (gdbPorts entries) s
        | none => .ambiguousDevice (gdbPorts entries)
      else .ok (DEVICE_BY_ID ++ (ms.getLastD []).take 4076)

/-- serial_open (serial_unix.c lines 218-292) as a state transformer on the
receive buffer.  After a successful name resolution the buffer cursors are
reset (lines 278-280) and only then is the device opened; `openOk` models
`open` succeeding, `netOk` the network fallback succeeding and `attrOk`
`set_interface_attribs` succeeding.  Returns the C boolean result together
with the final buffer state. -/
def serial_open (optDevice hint : Option (List Char))
    (dir : Option (List (List Char))) (openOk netOk attrOk : Bool)
    (st : BufSt) : Bool × BufSt :=
  match serial_open_resolve optDevice hint dir with
  | .ok _ =>
    let st2 : BufSt := ⟨st.buf, 0, 0⟩
    if openOk then (attrOk, st2)
    else if netOk then (true, st2)
    else (false, st2)
  | _ => (false, st)

/-! ### Reference (flat-stream) semantics, for the refinement claims

These definitions follow the spec's description of the algorithm over the
concatenated byte stream, independent of how it is chunked into refills;
they are compared with the buffered machine above. -/

/-- Reference seek: drop bytes up to and including the first REMOTE_RESP;
`none` when the stream ends without a start marker. -/
def seekSpec : List Nat → Option (List Nat)
  | [] => none
  | b :: rest => if b = REMOTE_RESP then some rest else seekSpec rest

/-- Reference collection: consume at most `room` bytes, stopping early at a
REMOTE_EOM (which is written to the destination as 0); returns the C return
value contribution (bytes before the marker, or `room` when the
destination fills) together with the bytes written.  `none` when the
stream ends first. -/
def collectSpec : List Nat → Nat → Option (Nat × List Nat)
  | _, 0 => some (0, [])
  | [], _ + 1 => none
  | b :: rest, room + 1 =>
    if b = REMOTE_EOM then some (0, [0])
    else
      match collectSpec rest room with
      | some (n, d) => some (n + 1, b :: d)
      | none => none

/-- Reference scan over the listed unconsumed bytes: how many bytes the
inner scan of platform_buffer_read covers given `room` bytes of remaining
destination capacity (the end marker, when it stops the scan, is
included). -/
def scanSpec : List Nat → Nat → Nat
  | [], _ => 0
  | _ :: _, 0 => 0
  | b :: rest, room + 1 => if b = REMOTE_EOM then 1 else scanSpec rest room + 1

/-- Reference read over a flat byte stream. -/
def flatRead (stream : List Nat) (cap : Nat) : ReadOut :=
  match seekSpec stream with
  | none => .err (-4)
  | some body =>
    match collectSpec body cap with
    | none => .err (-4)
    | some (n, d) => .ok (n : Int) d

/-- The bytes a refill event delivers (empty for error events). -/
def evPayload : SelectOutcome → List Nat
  | .ready _ data => data
  | _ => []

/-- A refill event is well formed and productive: `select` reported data,
`read` returned the (positive) number of bytes it deposited, and that
count does not exceed the buffer capacity. -/
def evOkB (ev : SelectOutcome) : Bool :=
  match ev with
  | .ready res data =>
    decide (res = (data.length : Int)) && decide (0 < data.length)
      && decide (data.length ≤ READ_BUFFER_LENGTH)
  | _ => false

/-- Every refill in the environment is well formed and productive. -/
def chunksOk (events : List SelectOutcome) : Bool :=
  events.all evOkB

/-- The buffer state is well formed: the invariant
`offset ≤ fullness ≤ capacity` of the spec, with the array no larger than
READ_BUFFER_LENGTH. -/
def bufWFB (b : BufSt) : Bool :=
  decide (b.offset ≤ b.fullness) && decide (b.fullness ≤ b.buf.length)
    && decide (b.buf.length ≤ READ_BUFFER_LENGTH)

/-- The unconsumed bytes currently buffered: `read_buffer[offset..fullness)`. -/
def pendingOf (b : BufSt) : List Nat :=
  (b.buf.take b.fullness).drop b.offset

/-- The flat byte stream a seek state still has in front of it. -/
def flatS (st : SState) : List Nat :=
  pendingOf st.bst ++ (st.events.map evPayload).flatten

/-- The flat byte stream a collect state still has in front of it. -/
def flatC (st : CState) : List Nat :=
  pendingOf st.bst ++ (st.events.map evPayload).flatten

/-- Fuel sufficient for the seek loop on well-formed states. -/
def seekBound (st : SState) : Nat :=
  st.events.length * (READ_BUFFER_LENGTH + 1)
    + (st.bst.fullness - st.bst.offset) + 1

/-- Fuel sufficient for the collection loop on well-formed states. -/
def collectBound (st : CState) : Nat :=
  st.events.length * (st.cap + 1) + (st.cap - st.dest.length) + 1

/-- Fuel sufficient for a whole platform_buffer_read call. -/
def readBound (events : List SelectOutcome) (b : BufSt) (cap : Nat) : Nat :=
  seekBound ⟨events, b, false⟩ + events.length * (cap + 1) + (cap + 1)

/-- The invariant a seek state must satisfy: well-formed buffer, productive
refills and no overrun so far. -/
def SInv (st : SState) : Prop :=
  bufWFB st.bst = true ∧ chunksOk st.events = true ∧ st.overrun = false

/-- The invariant a collect state must satisfy. -/
def CInv (st : CState) : Prop :=
  bufWFB st.bst = true ∧ chunksOk st.events = true ∧ st.overrun = false
    ∧ st.dest.length ≤ st.cap

/-- Concrete state for the zero-byte-refill counterexample: an empty buffer
whose next refill reports data ready but delivers zero bytes. -/
def zeroByteRefillStart : SState :=
  ⟨[.ready 0 []], initialBufState, false⟩

/-- What the seek loop's next iteration produces from
`zeroByteRefillStart`: the refill succeeds with `fullness = 0`, then one
byte is consumed from index 0 anyway, leaving `offset = 1 > fullness = 0`
with the overrun flag set. -/
def zeroByteRefillResult : SState :=
  ⟨[], ⟨List.replicate READ_BUFFER_LENGTH 0, 0, 1⟩, true⟩

/-- A partition of a byte stream into refill chunks, as the refill
environment that delivers exactly those chunks (each `read` returns the
chunk's byte count). -/
def chunkEvents (c : List (List Nat)) : List SelectOutcome :=
  c.map fun bs => .ready ((bs.length : Int)) bs

/-- The chunks of a partition are well formed: nonempty (a `read` reported
ready returns at least one byte) and at most the buffer capacity (a `read`
never returns more than it was asked for). -/
def chunksWFB (c : List (List Nat)) : Bool :=
  c.all fun bs =>
    decide (0 < bs.length) && decide (bs.length ≤ READ_BUFFER_LENGTH)

/-! ### Basic lemmas about well-formedness and the pending bytes -/

theorem bufWFB_iff (b : BufSt) :
    bufWFB b = true ↔
      b.offset ≤ b.fullness ∧ b.fullness ≤ b.buf.length
        ∧ b.buf.length ≤ READ_BUFFER_LENGTH := by
  simp [bufWFB, and_assoc]

theorem chunksOk_iff (events : List SelectOutcome) :
    chunksOk events = true ↔ ∀ ev ∈ events, evOkB ev = true := by
  simp [chunksOk, List.all_eq_true]

theorem evOkB_elim (ev : SelectOutcome) (h : evOkB ev = true) :
    ∃ data : List Nat, ev = .ready ((data.length : Int)) data
      ∧ 0 < data.length ∧ data.length ≤ READ_BUFFER_LENGTH := by
  cases ev with
  | selErr => simp [evOkB] at h
  | selTimeout => simp [evOkB] at h
  | ready res data =>
    simp only [evOkB, Bool.and_eq_true, decide_eq_true_eq] at h
    exact ⟨data, by rw [h.1.1], h.1.2, h.2⟩

theorem pendingOf_eq_nil (b : BufSt) (h : b.fullness ≤ b.offset) :
    pendingOf b = [] := by
  apply List.drop_eq_nil_of_le
  rw [List.length_take]
  exact le_trans (min_le_left _ _) h

theorem pendingOf_length (b : BufSt) (h : b.fullness ≤ b.buf.length) :
    (pendingOf b).length = b.fullness - b.offset := by
  rw [pendingOf, List.length_drop, List.length_take]
  omega

theorem pendingOf_cons (b : BufSt) (h1 : b.offset < b.fullness)
    (h2 : b.fullness ≤ b.buf.length) :
    pendingOf b =
      b.buf.getD b.offset 0 :: pendingOf ⟨b.buf, b.fullness, b.offset + 1⟩ := by
  have hlt : b.offset < (b.buf.take b.fullness).length := by
    rw [List.length_take]; omega
  have hbl : b.offset < b.buf.length := by omega
  rw [pendingOf, List.drop_eq_getElem_cons hlt, List.getElem_take,
    List.getD_eq_getElem?_getD, List.getElem?_eq_getElem hbl]
  rfl

theorem pendingOf_refill (data buf : List Nat) :
    pendingOf ⟨data ++ buf.drop data.length, data.length, 0⟩ = data := by
  rw [pendingOf]
  simp only [List.drop_zero]
  exact List.take_left data _

theorem pendingOf_advance (b : BufSt) (k : Nat) :
    pendingOf ⟨b.buf, b.fullness, b.offset + k⟩ = (pendingOf b).drop k := by
  rw [pendingOf, pendingOf, List.drop_drop]

theorem span_eq_pending_take (b : BufSt) (k : Nat)
    (h2 : b.fullness ≤ b.buf.length) (hk : k ≤ b.fullness - b.offset) :
    (b.buf.drop b.offset).take k = (pendingOf b).take k := by
  rw [pendingOf, List.drop_take, List.take_take]
  congr 1
  omega

/-! ### The seek loop against the flat stream -/

theorem seekSpec_cons (x : Nat) (rest : List Nat) :
    seekSpec (x :: rest) =
      if x = REMOTE_RESP then some rest else seekSpec rest := rfl

theorem refillIfNeeded_skip (events : List SelectOutcome) (b : BufSt)
    (h : b.offset ≠ b.fullness) :
    refillIfNeeded events b = (0, events, b) := by
  unfold refillIfNeeded
  rw [if_neg h]

theorem refillIfNeeded_empty (b : BufSt) (h : b.offset = b.fullness) :
    refillIfNeeded [] b = (-4, [], b) := by
  unfold refillIfNeeded
  rw [if_pos h]

theorem refillIfNeeded_ready (ev : SelectOutcome) (rest : List SelectOutcome)
    (b : BufSt) (data : List Nat) (h : b.offset = b.fullness)
    (hev : ev = .ready ((data.length : Int)) data) :
    refillIfNeeded (ev :: rest) b =
      (0, rest, ⟨data ++ b.buf.drop data.length, data.length, 0⟩) := by
  subst hev
  unfold refillIfNeeded
  rw [if_pos h]
  have hnn : ¬ ((data.length : Int) < 0) := by omega
  simp [bmda_read_more_data, hnn, Int.toNat_ofNat]

theorem seekIter_consume (st : SState) (hne : st.bst.offset ≠ st.bst.fullness)
    (hwf : bufWFB st.bst = true) :
    seekIter st =
      if st.bst.buf.getD st.bst.offset 0 = REMOTE_RESP then
        SeekStep.found ⟨st.events, ⟨st.bst.buf, st.bst.fullness, st.bst.offset + 1⟩, st.overrun⟩
      else
        SeekStep.cont ⟨st.events, ⟨st.bst.buf, st.bst.fullness, st.bst.offset + 1⟩, st.overrun⟩ := by
  obtain ⟨h1, h2, h3⟩ := (bufWFB_iff st.bst).mp hwf
  have hlt : st.bst.offset < st.bst.fullness := lt_of_le_of_ne h1 hne
  have hob : ¬ READ_BUFFER_LENGTH ≤ st.bst.offset := by omega
  have hov : ¬ st.bst.fullness ≤ st.bst.offset := by omega
  rw [seekIter, refillIfNeeded_skip _ _ hne]
  simp [hob, hov]

theorem seekIter_refill (st : SState) (heq : st.bst.offset = st.bst.fullness)
    (data : List Nat) (rest : List SelectOutcome)
    (hev : st.events = .ready ((data.length : Int)) data :: rest)
    (hpos : 0 < data.length) :
    seekIter st =
      if (data ++ st.bst.buf.drop data.length).getD 0 0 = REMOTE_RESP then
        SeekStep.found ⟨rest, ⟨data ++ st.bst.buf.drop data.length, data.length, 1⟩, st.overrun⟩
      else
        SeekStep.cont ⟨rest, ⟨data ++ st.bst.buf.drop data.length, data.length, 1⟩, st.overrun⟩ := by
  have hov : ¬ data.length ≤ 0 := by omega
  rw [seekIter, hev, refillIfNeeded_ready _ _ _ _ heq rfl]
  simp [READ_BUFFER_LENGTH, hov]

theorem seekIter_exhausted (st : SState) (heq : st.bst.offset = st.bst.fullness)
    (hev : st.events = []) :
    seekIter st = SeekStep.fail (-4) ⟨[], st.bst, st.overrun⟩ := by
  rw [seekIter, hev, refillIfNeeded_empty _ heq]
  norm_num

theorem flatS_cons_of_pending (st : SState) (hne : st.bst.offset ≠ st.bst.fullness)
    (hwf : bufWFB st.bst = true) :
    flatS st =
      st.bst.buf.getD st.bst.offset 0
        :: flatS ⟨st.events, ⟨st.bst.buf, st.bst.fullness, st.bst.offset + 1⟩, st.overrun⟩ := by
  obtain ⟨h1, h2, h3⟩ := (bufWFB_iff st.bst).mp hwf
  have hlt : st.bst.offset < st.bst.fullness := lt_of_le_of_ne h1 hne
  rw [flatS, flatS, pendingOf_cons st.bst hlt h2]
  rfl

theorem seekLoop_sim : ∀ (fuel : Nat) (st : SState),
    bufWFB st.bst = true → chunksOk st.events = true → seekBound st ≤ fuel →
    (seekSpec (flatS st) = none → ∃ st2, seekLoop fuel st = .fail (-4) st2)
      ∧ ∀ body, seekSpec (flatS st) = some body →
          ∃ st2, seekLoop fuel st = .found st2 ∧ bufWFB st2.bst = true
            ∧ chunksOk st2.events = true ∧ flatS st2 = body
            ∧ st2.overrun = st.overrun ∧ st2.events.length ≤ st.events.length := by
  intro fuel
  induction fuel with
  | zero =>
    intro st hwf hok hb
    rw [seekBound] at hb
    omega
  | succ f ih =>
    intro st hwf hok hb
    by_cases hoe : st.bst.offset = st.bst.fullness
    · cases hev : st.events with
      | nil =>
        have hit := seekIter_exhausted st hoe hev
        have hloop : seekLoop (f + 1) st = .fail (-4) ⟨[], st.bst, st.overrun⟩ := by
          simp only [seekLoop, hit]
        have hflat : flatS st = [] := by
          rw [flatS, pendingOf_eq_nil st.bst (le_of_eq hoe.symm), hev]
          rfl
        refine ⟨fun _ => ⟨_, hloop⟩, fun body hbody => ?_⟩
        rw [hflat] at hbody
        simp [seekSpec] at hbody
      | cons ev rest =>
        have hokev : evOkB ev = true :=
          (chunksOk_iff _).mp hok ev (by rw [hev]; exact List.mem_cons_self ev rest)
        have hokrest : chunksOk rest = true := by
          rw [chunksOk_iff]
          intro x hx
          exact (chunksOk_iff _).mp hok x (by rw [hev]; exact List.mem_cons_of_mem ev hx)
        obtain ⟨data, hevr, hpos, hle⟩ := evOkB_elim ev hokev
        rw [hevr] at hev
        obtain ⟨hw1, hw2, hw3⟩ := (bufWFB_iff st.bst).mp hwf
        have hit := seekIter_refill st hoe data rest hev hpos
        set bMid : BufSt := ⟨data ++ st.bst.buf.drop data.length, data.length, 0⟩ with hbMid
        have hmlen : bMid.buf.length ≤ READ_BUFFER_LENGTH := by
          show (data ++ st.bst.buf.drop data.length).length ≤ READ_BUFFER_LENGTH
          rw [List.length_append, List.length_drop]
          omega
        have hwfMid : bufWFB bMid = true := by
          rw [bufWFB_iff]
          refine ⟨Nat.zero_le _, ?_, hmlen⟩
          show data.length ≤ (data ++ st.bst.buf.drop data.length).length
          rw [List.length_append]
          omega
        have hne0 : bMid.offset ≠ bMid.fullness := by
          show 0 ≠ data.length
          omega
        have hflat0 : flatS st = flatS ⟨rest, bMid, st.overrun⟩ := by
          rw [flatS, flatS, pendingOf_eq_nil st.bst (le_of_eq hoe.symm), hev,
            pendingOf_refill]
          simp [evPayload]
        have hflat1 := flatS_cons_of_pending ⟨rest, bMid, st.overrun⟩ hne0 hwfMid
        set byte := bMid.buf.getD bMid.offset 0 with hbyte
        set st2 : SState := ⟨rest, ⟨bMid.buf, bMid.fullness, bMid.offset + 1⟩, st.overrun⟩
          with hst2
        have hflat2 : flatS st = byte :: flatS st2 := by rw [hflat0, hflat1]
        have hwf2 : bufWFB st2.bst = true := by
          rw [bufWFB_iff]
          refine ⟨?_, ?_, hmlen⟩
          · show 0 + 1 ≤ data.length
            omega
          · show data.length ≤ bMid.buf.length
            rw [List.length_append, List.length_drop]
            omega
        by_cases hresp : byte = REMOTE_RESP
        · have hloop : seekLoop (f + 1) st = .found st2 := by
            simp only [seekLoop, hit, if_pos hresp]
          have hspec : seekSpec (flatS st) = some (flatS st2) := by
            rw [hflat2, seekSpec_cons, if_pos hresp]
          constructor
          · intro hnone
            rw [hspec] at hnone
            exact absurd hnone (by simp)
          · intro body hbody
            rw [hspec] at hbody
            injection hbody with hbody
            refine ⟨st2, hloop, hwf2, hokrest, hbody, rfl, ?_⟩
            show rest.length ≤ (ev :: rest).length
            simp only [List.length_cons]
            omega
        · have hloop : seekLoop (f + 1) st = seekLoop f st2 := by
            simp only [seekLoop, hit, if_neg hresp]
          have hspec : seekSpec (flatS st) = seekSpec (flatS st2) := by
            rw [hflat2, seekSpec_cons, if_neg hresp]
          have hb2 : seekBound st2 ≤ f := by
            rw [seekBound] at hb ⊢
            rw [hev] at hb
            simp only [List.length_cons] at hb
            show rest.length * (READ_BUFFER_LENGTH + 1)
              + (data.length - (0 + 1)) + 1 ≤ f
            rw [READ_BUFFER_LENGTH] at hb ⊢
            have hle4 : data.length ≤ 4096 := hle
            omega
          obtain ⟨ihn, ihs⟩ := ih st2 hwf2 hokrest hb2
          constructor
          · intro hnone
            rw [hspec] at hnone
            obtain ⟨st3, h3⟩ := ihn hnone
            exact ⟨st3, by rw [hloop]; exact h3⟩
          · intro body hbody
            rw [hspec] at hbody
            obtain ⟨st3, h3, h4, h5, h6, h7, h8⟩ := ihs body hbody
            refine ⟨st3, by rw [hloop]; exact h3, h4, h5, h6, h7, ?_⟩
            have h8a : st3.events.length ≤ rest.length := h8
            simp only [List.length_cons]
            omega
    · obtain ⟨hw1, hw2, hw3⟩ := (bufWFB_iff st.bst).mp hwf
      have hlt : st.bst.offset < st.bst.fullness := lt_of_le_of_ne hw1 hoe
      have hit := seekIter_consume st hoe hwf
      set byte := st.bst.buf.getD st.bst.offset 0 with hbyte
      set st2 : SState :=
        ⟨st.events, ⟨st.bst.buf, st.bst.fullness, st.bst.offset + 1⟩, st.overrun⟩ with hst2
      have hflat2 : flatS st = byte :: flatS st2 := flatS_cons_of_pending st hoe hwf
      have hwf2 : bufWFB st2.bst = true := by
        rw [bufWFB_iff]
        exact ⟨by show st.bst.offset + 1 ≤ st.bst.fullness; omega, hw2, hw3⟩
      by_cases hresp : byte = REMOTE_RESP
      · have hloop : seekLoop (f + 1) st = .found st2 := by
          simp only [seekLoop, hit, if_pos hresp]
        have hspec : seekSpec (flatS st) = some (flatS st2) := by
          rw [hflat2, seekSpec_cons, if_pos hresp]
        constructor
        · intro hnone
          rw [hspec] at hnone
          exact absurd hnone (by simp)
        · intro body hbody
          rw [hspec] at hbody
          injection hbody with hbody
          exact ⟨st2, hloop, hwf2, hok, hbody, rfl, le_refl _⟩
      · have hloop : seekLoop (f + 1) st = seekLoop f st2 := by
          simp only [seekLoop, hit, if_neg hresp]
        have hspec : seekSpec (flatS st) = seekSpec (flatS st2) := by
          rw [hflat2, seekSpec_cons, if_neg hresp]
        have hb2 : seekBound st2 ≤ f := by
          rw [seekBound] at hb ⊢
          show st.events.length * (READ_BUFFER_LENGTH + 1)
            + (st.bst.fullness - (st.bst.offset + 1)) + 1 ≤ f
          omega
        obtain ⟨ihn, ihs⟩ := ih st2 hwf2 hok hb2
        constructor
        · intro hnone
          rw [hspec] at hnone
          obtain ⟨st3, h3⟩ := ihn hnone
          exact ⟨st3, by rw [hloop]; exact h3⟩
        · intro body hbody
          rw [hspec] at hbody
          obtain ⟨st3, h3, h4, h5, h6, h7, h8⟩ := ihs body hbody
          exact ⟨st3, by rw [hloop]; exact h3, h4, h5, h6, h7, h8⟩

/-! ### The inner scan against the reference scan -/

theorem getLastD_irrel (l : List Nat) (d1 d2 : Nat) (h : l ≠ []) :
    l.getLastD d1 = l.getLastD d2 := by
  rw [List.getLastD_eq_getLast?, List.getLastD_eq_getLast?,
    List.getLast?_eq_getLast l h]
  rfl

theorem scanSpec_zero_room (p : List Nat) : scanSpec p 0 = 0 := by
  cases p <;> rfl

theorem scanSpec_le_length : ∀ (p : List Nat) (room : Nat),
    scanSpec p room ≤ p.length := by
  intro p
  induction p with
  | nil => intro room; simp [scanSpec]
  | cons b rest ih =>
    intro room
    cases room with
    | zero => simp [scanSpec]
    | succ r =>
      simp only [scanSpec, List.length_cons]
      by_cases he : b = REMOTE_EOM
      · rw [if_pos he]; omega
      · rw [if_neg he]; have := ih r; omega

theorem scanSpec_le_room : ∀ (p : List Nat) (room : Nat),
    scanSpec p room ≤ room := by
  intro p
  induction p with
  | nil => intro room; simp [scanSpec]
  | cons b rest ih =>
    intro room
    cases room with
    | zero => simp [scanSpec]
    | succ r =>
      simp only [scanSpec]
      by_cases he : b = REMOTE_EOM
      · rw [if_pos he]; omega
      · rw [if_neg he]; have := ih r; omega

theorem scanSpec_pos (b : Nat) (p : List Nat) (room : Nat) (h : 0 < room) :
    0 < scanSpec (b :: p) room := by
  cases room with
  | zero => omega
  | succ r =>
    simp only [scanSpec]
    split <;> omega

theorem scanSpec_prefix_no_eom : ∀ (p : List Nat) (room x : Nat),
    x ∈ p.take (scanSpec p room - 1) → x ≠ REMOTE_EOM := by
  intro p
  induction p with
  | nil => intro room x hx; simp [scanSpec] at hx
  | cons b rest ih =>
    intro room x hx
    cases room with
    | zero => simp [scanSpec] at hx
    | succ r =>
      simp only [scanSpec] at hx
      by_cases he : b = REMOTE_EOM
      · rw [if_pos he] at hx; simp at hx
      · rw [if_neg he] at hx
        have hred : scanSpec rest r + 1 - 1 = scanSpec rest r := by omega
        rw [hred] at hx
        cases hs : scanSpec rest r with
        | zero => rw [hs] at hx; simp at hx
        | succ k =>
          rw [hs, List.take_succ_cons] at hx
          rcases List.mem_cons.mp hx with h | h
          · rw [h]; exact he
          · exact ih r x (by rw [hs]; simpa using h)

theorem scanSpec_stop : ∀ (p : List Nat) (room : Nat),
    scanSpec p room = min p.length room
      ∨ (p.take (scanSpec p room)).getLastD 0 = REMOTE_EOM := by
  intro p
  induction p with
  | nil => intro room; left; simp [scanSpec]
  | cons b rest ih =>
    intro room
    cases room with
    | zero => left; simp [scanSpec]
    | succ r =>
      by_cases he : b = REMOTE_EOM
      · right
        simp only [scanSpec, if_pos he]
        rw [List.take_succ_cons, List.take_zero]
        rw [List.getLastD_cons, List.getLastD_nil, he]
      · rcases ih r with h | h
        · left
          simp only [scanSpec, if_neg he, List.length_cons]
          rw [h]
          omega
        · right
          simp only [scanSpec, if_neg he]
          cases hs : scanSpec rest r with
          | zero =>
            rw [hs] at h
            simp only [List.take_zero, List.getLastD_nil] at h
            exact absurd h (by decide)
          | succ k =>
            rw [hs] at h
            rw [List.take_succ_cons, List.getLastD_cons]
            have hkl : k + 1 ≤ rest.length := by
              have := scanSpec_le_length rest r
              omega
            have hne : rest.take (k + 1) ≠ [] := by
              intro hcon
              have hlen : (rest.take (k + 1)).length = 0 := by rw [hcon]; rfl
              rw [List.length_take] at hlen
              omega
            rw [getLastD_irrel _ b 0 hne]
            exact h

theorem take_dropLast (p : List Nat) (k : Nat) (hk : k ≤ p.length) :
    (p.take k).dropLast = p.take (k - 1) := by
  rw [List.dropLast_eq_take, List.length_take, List.take_take]
  congr 1
  omega

theorem take_ne_nil_of_scan (p : List Nat) (k : Nat) (h1 : 0 < k)
    (h2 : k ≤ p.length) : p.take k ≠ [] := by
  intro hcon
  have hlen : (p.take k).length = 0 := by rw [hcon]; rfl
  rw [List.length_take] at hlen
  omega

theorem span_eom_decomp (p : List Nat) (room : Nat)
    (hpos : 0 < scanSpec p room) (hlen : scanSpec p room ≤ p.length)
    (hlast : (p.take (scanSpec p room)).getLastD 0 = REMOTE_EOM) :
    p.take (scanSpec p room)
      = p.take (scanSpec p room - 1) ++ [REMOTE_EOM] := by
  have hne := take_ne_nil_of_scan p _ hpos hlen
  have hdec := List.dropLast_append_getLast hne
  rw [take_dropLast p _ hlen] at hdec
  have hg : (p.take (scanSpec p room)).getLast hne
      = (p.take (scanSpec p room)).getLastD 0 := by
    rw [List.getLastD_eq_getLast?, List.getLast?_eq_getLast _ hne]
    rfl
  rw [hg, hlast] at hdec
  exact hdec.symm

theorem span_no_eom (p : List Nat) (room : Nat)
    (hpos : 0 < scanSpec p room) (hlen : scanSpec p room ≤ p.length)
    (hlast : (p.take (scanSpec p room)).getLastD 0 ≠ REMOTE_EOM) :
    (∀ x ∈ p.take (scanSpec p room), x ≠ REMOTE_EOM)
      ∧ scanSpec p room = min p.length room := by
  have hmin : scanSpec p room = min p.length room :=
    (scanSpec_stop p room).resolve_right hlast
  refine ⟨fun x hx => ?_, hmin⟩
  have hne := take_ne_nil_of_scan p _ hpos hlen
  have hdec := List.dropLast_append_getLast hne
  rw [← hdec] at hx
  rcases List.mem_append.mp hx with h | h
  · rw [take_dropLast p _ hlen] at h
    exact scanSpec_prefix_no_eom p room x h
  · have hg : (p.take (scanSpec p room)).getLast hne
        = (p.take (scanSpec p room)).getLastD 0 := by
      rw [List.getLastD_eq_getLast?, List.getLast?_eq_getLast _ hne]
      rfl
    rcases List.mem_singleton.mp h with rfl
    rw [hg]
    exact hlast

theorem scanLen_unfold (buf : List Nat) (rbOff full oOff cap rl : Nat) :
    scanLen buf rbOff full oOff cap rl =
      if rbOff + rl < full ∧ oOff + rl < cap then
        if buf.getD (rbOff + rl) 0 = REMOTE_EOM then rl + 1
        else scanLen buf rbOff full oOff cap (rl + 1)
      else rl := by
  rw [scanLen]
  cases hrem : full - (rbOff + rl) with
  | zero =>
    have hng : ¬(rbOff + rl < full ∧ oOff + rl < cap) := by omega
    rw [scanGo, if_neg hng]
  | succ r =>
    rw [scanGo]
    by_cases hg : rbOff + rl < full ∧ oOff + rl < cap
    · rw [if_pos hg, if_pos hg]
      by_cases he : buf.getD (rbOff + rl) 0 = REMOTE_EOM
      · rw [if_pos he, if_pos he]
      · rw [if_neg he, if_neg he, scanLen]
        have harg : full - (rbOff + (rl + 1)) = r := by omega
        rw [harg]
    · rw [if_neg hg, if_neg hg]

theorem scanLen_eq_aux : ∀ (n : Nat) (buf : List Nat) (off full oOff cap rl : Nat),
    full ≤ buf.length → full - (off + rl) ≤ n →
    scanLen buf off full oOff cap rl
      = rl + scanSpec (pendingOf ⟨buf, full, off + rl⟩) (cap - (oOff + rl)) := by
  intro n
  induction n with
  | zero =>
    intro buf off full oOff cap rl h2 h3
    have hng : ¬(off + rl < full ∧ oOff + rl < cap) := by omega
    rw [scanLen_unfold, if_neg hng]
    have hpe : pendingOf ⟨buf, full, off + rl⟩ = [] :=
      pendingOf_eq_nil _ (by show full ≤ off + rl; omega)
    rw [hpe]
    simp [scanSpec]
  | succ n ihn =>
    intro buf off full oOff cap rl h2 h3
    by_cases hg : off + rl < full ∧ oOff + rl < cap
    · have hcons : pendingOf ⟨buf, full, off + rl⟩
          = buf.getD (off + rl) 0 :: pendingOf ⟨buf, full, off + rl + 1⟩ :=
        pendingOf_cons ⟨buf, full, off + rl⟩ hg.1 h2
      have hroom : cap - (oOff + rl) = (cap - (oOff + rl + 1)) + 1 := by omega
      rw [scanLen_unfold, if_pos hg, hcons, hroom]
      by_cases he : buf.getD (off + rl) 0 = REMOTE_EOM
      · rw [if_pos he]
        have hone : scanSpec
            (buf.getD (off + rl) 0 :: pendingOf ⟨buf, full, off + rl + 1⟩)
            (cap - (oOff + rl + 1) + 1) = 1 := by
          simp only [scanSpec]
          rw [if_pos he]
        rw [hone]
      · rw [if_neg he]
        rw [ihn buf off full oOff cap (rl + 1) h2 (by omega)]
        have ha1 : off + (rl + 1) = off + rl + 1 := by omega
        have ha2 : oOff + (rl + 1) = oOff + rl + 1 := by omega
        rw [ha1, ha2]
        simp only [scanSpec, if_neg he]
        omega
    · rw [scanLen_unfold, if_neg hg]
      rcases Nat.lt_or_ge (off + rl) full with hf | hf
      · have hcap : cap - (oOff + rl) = 0 := by omega
        rw [hcap, scanSpec_zero_room]
        omega
      · have hpe : pendingOf ⟨buf, full, off + rl⟩ = [] :=
          pendingOf_eq_nil _ hf
        rw [hpe]
        simp [scanSpec]

theorem scanLen_spec (b : BufSt) (oOff cap : Nat)
    (h2 : b.fullness ≤ b.buf.length) :
    scanLen b.buf b.offset b.fullness oOff cap 0
      = scanSpec (pendingOf b) (cap - oOff) := by
  have h := scanLen_eq_aux b.fullness b.buf b.offset b.fullness oOff cap 0 h2
    (by omega)
  simpa using h

/-! ### Reference collection lemmas -/

theorem collectSpec_nil_pos (room : Nat) (h : 0 < room) :
    collectSpec [] room = none := by
  cases room with
  | zero => omega
  | succ r => rfl

theorem collectSpec_zero (body : List Nat) : collectSpec body 0 = some (0, []) := by
  cases body <;> rfl

theorem collectSpec_append_no_eom : ∀ (s t : List Nat) (room : Nat),
    (∀ x ∈ s, x ≠ REMOTE_EOM) → s.length ≤ room →
    collectSpec (s ++ t) room =
      match collectSpec t (room - s.length) with
      | some (n, d) => some (s.length + n, s ++ d)
      | none => none := by
  intro s
  induction s with
  | nil =>
    intro t room hno hlen
    simp only [List.nil_append, List.length_nil, Nat.sub_zero]
    cases h : collectSpec t room with
    | none => rfl
    | some nd =>
      cases nd with
      | mk n d => simp
  | cons b s1 ih =>
    intro t room hno hlen
    have hb : b ≠ REMOTE_EOM := hno b (List.mem_cons_self b s1)
    cases room with
    | zero => simp at hlen
    | succ r =>
      have hlen1 : s1.length ≤ r := by
        simp only [List.length_cons] at hlen
        omega
      show collectSpec (b :: (s1 ++ t)) (r + 1) = _
      simp only [collectSpec, if_neg hb]
      rw [ih t r (fun x hx => hno x (List.mem_cons_of_mem b hx)) hlen1]
      have hsub : r + 1 - (b :: s1).length = r - s1.length := by
        simp only [List.length_cons]
        omega
      rw [hsub]
      cases h : collectSpec t (r - s1.length) with
      | none => rfl
      | some nd =>
        cases nd with
        | mk n d =>
          simp only [List.cons_append, List.length_cons]
          have harith : s1.length + n + 1 = s1.length + 1 + n := by omega
          rw [harith]

theorem collectSpec_eom : ∀ (s t : List Nat) (room : Nat),
    (∀ x ∈ s, x ≠ REMOTE_EOM) → s.length < room →
    collectSpec (s ++ REMOTE_EOM :: t) room = some (s.length, s ++ [0]) := by
  intro s
  induction s with
  | nil =>
    intro t room hno hlen
    cases room with
    | zero => omega
    | succ r => simp [collectSpec]
  | cons b s1 ih =>
    intro t room hno hlen
    have hb : b ≠ REMOTE_EOM := hno b (List.mem_cons_self b s1)
    cases room with
    | zero => omega
    | succ r =>
      have hlen1 : s1.length < r := by
        simp only [List.length_cons] at hlen
        omega
      show collectSpec (b :: (s1 ++ REMOTE_EOM :: t)) (r + 1) = _
      simp only [collectSpec, if_neg hb]
      rw [ih t r (fun x hx => hno x (List.mem_cons_of_mem b hx)) hlen1]
      simp

theorem collectSpec_fill (s t : List Nat) (hno : ∀ x ∈ s, x ≠ REMOTE_EOM) :
    collectSpec (s ++ t) s.length = some (s.length, s) := by
  rw [collectSpec_append_no_eom s t s.length hno (le_refl _)]
  rw [Nat.sub_self, collectSpec_zero]
  simp

/-! ### The collection loop against the reference collection -/

theorem collectIter_step (st : CState) (evs2 : List SelectOutcome) (bM : BufSt)
    (k : Nat) (span : List Nat)
    (hrib : refillIfNeeded st.events st.bst = (0, evs2, bM))
    (hwf : bufWFB bM = true) (hne : bM.offset < bM.fullness)
    (hlt : st.dest.length < st.cap)
    (hk : k = scanSpec (pendingOf bM) (st.cap - st.dest.length))
    (hspan : span = (pendingOf bM).take k) :
    (span.getLastD 0 = REMOTE_EOM →
       collectIter st = .done ((st.dest.length + k - 1 : Nat) : Int)
         ((st.dest ++ span).dropLast ++ [0]))
    ∧ (span.getLastD 0 ≠ REMOTE_EOM →
       collectIter st = .cont ⟨evs2, ⟨bM.buf, bM.fullness, bM.offset + k⟩,
         st.overrun, st.dest ++ span, st.cap⟩) := by
  obtain ⟨hw1, hw2, hw3⟩ := (bufWFB_iff bM).mp hwf
  have hrl : scanLen bM.buf bM.offset bM.fullness st.dest.length st.cap 0
      = k := by rw [scanLen_spec bM _ _ hw2, hk]
  have hplen : (pendingOf bM).length = bM.fullness - bM.offset :=
    pendingOf_length bM hw2
  have hpcons := pendingOf_cons bM hne hw2
  have hk1 : 0 < k := by
    rw [hk, hpcons]
    exact scanSpec_pos _ _ _ (by omega)
  have hkp : k ≤ (pendingOf bM).length := hk ▸ scanSpec_le_length _ _
  have hspan2 : (bM.buf.drop bM.offset).take k = span := by
    rw [span_eq_pending_take bM k hw2 (by omega), hspan]
  have h0 : ¬ st.cap ≤ st.dest.length := not_le.mpr hlt
  have hi0 : ¬ ((0 : Int) < 0) := by norm_num
  have hk0 : ¬ k = 0 := by omega
  constructor <;> intro hlast
  · unfold collectIter
    rw [if_neg h0, hrib]
    simp only
    rw [if_neg hi0, hrl, hspan2, if_neg hk0, if_pos hlast]
  · unfold collectIter
    rw [if_neg h0, hrib]
    simp only
    rw [if_neg hi0, hrl, hspan2, if_neg hk0, if_neg hlast]

theorem collect_entry (st : CState) (h1 : bufWFB st.bst = true)
    (h2 : chunksOk st.events = true) (hlt : st.dest.length < st.cap) :
    (collectIter st = .fail (-4) ∧ flatC st = [])
    ∨ ∃ evs2 bM, refillIfNeeded st.events st.bst = (0, evs2, bM)
        ∧ bufWFB bM = true ∧ chunksOk evs2 = true ∧ bM.offset < bM.fullness
        ∧ pendingOf bM ++ (evs2.map evPayload).flatten = flatC st
        ∧ (evs2.length + 1 = st.events.length ∨ (evs2 = st.events ∧ bM = st.bst)) := by
  obtain ⟨hw1, hw2, hw3⟩ := (bufWFB_iff st.bst).mp h1
  have h0 : ¬ st.cap ≤ st.dest.length := not_le.mpr hlt
  by_cases hoe : st.bst.offset = st.bst.fullness
  · cases hev : st.events with
    | nil =>
      left
      constructor
      · unfold collectIter
        rw [if_neg h0, hev, refillIfNeeded_empty _ hoe]
        simp only
        rw [if_pos (by norm_num : (-4 : Int) < 0)]
      · rw [flatC, pendingOf_eq_nil st.bst (le_of_eq hoe.symm), hev]
        rfl
    | cons ev rest =>
      have hokev : evOkB ev = true :=
        (chunksOk_iff _).mp h2 ev (by rw [hev]; exact List.mem_cons_self ev rest)
      have hokrest : chunksOk rest = true := by
        rw [chunksOk_iff]
        intro x hx
        exact (chunksOk_iff _).mp h2 x (by rw [hev]; exact List.mem_cons_of_mem ev hx)
      obtain ⟨data, hevr, hpos, hle⟩ := evOkB_elim ev hokev
      subst hevr
      right
      refine ⟨rest, ⟨data ++ st.bst.buf.drop data.length, data.length, 0⟩,
        refillIfNeeded_ready _ _ _ _ hoe rfl, ?_, hokrest,
        by show (0 : Nat) < data.length; omega, ?_, ?_⟩
      · rw [bufWFB_iff]
        refine ⟨Nat.zero_le _, ?_, ?_⟩
        · show data.length ≤ (data ++ st.bst.buf.drop data.length).length
          rw [List.length_append]
          omega
        · show (data ++ st.bst.buf.drop data.length).length ≤ READ_BUFFER_LENGTH
          rw [List.length_append, List.length_drop]
          omega
      · rw [pendingOf_refill, flatC, pendingOf_eq_nil st.bst (le_of_eq hoe.symm),
          hev]
        simp [evPayload]
      · left
        simp
  · right
    exact ⟨st.events, st.bst, refillIfNeeded_skip _ _ hoe, h1, h2,
      lt_of_le_of_ne hw1 hoe, rfl, Or.inr ⟨rfl, rfl⟩⟩

theorem collectLoop_sim : ∀ (fuel : Nat) (st : CState),
    bufWFB st.bst = true → chunksOk st.events = true →
    st.dest.length ≤ st.cap → collectBound st ≤ fuel →
    (∀ n d, collectSpec (flatC st) (st.cap - st.dest.length) = some (n, d) →
       collectLoop fuel st = .ok ((st.dest.length + n : Nat) : Int) (st.dest ++ d))
    ∧ (collectSpec (flatC st) (st.cap - st.dest.length) = none →
       collectLoop fuel st = .err (-4)) := by
  intro fuel
  induction fuel with
  | zero =>
    intro st _ _ _ hb
    rw [collectBound] at hb
    omega
  | succ f ih =>
    intro st hwf hok hdc hb
    by_cases hfull : st.cap ≤ st.dest.length
    · have hcd : st.cap = st.dest.length := le_antisymm hfull hdc
      have heq : st.cap - st.dest.length = 0 := by omega
      have hdone : collectIter st = .done ((st.cap : Int)) st.dest := by
        unfold collectIter
        rw [if_pos hfull]
      have hloop : collectLoop (f + 1) st = .ok ((st.cap : Int)) st.dest := by
        simp only [collectLoop, hdone]
      rw [heq]
      constructor
      · intro n d hnd
        rw [collectSpec_zero] at hnd
        injection hnd with hnd
        have hn : (0 : Nat) = n := congrArg Prod.fst hnd
        have hd : ([] : List Nat) = d := congrArg Prod.snd hnd
        rw [hloop, ← hn, ← hd, List.append_nil]
        have harith : st.dest.length + 0 = st.cap := by omega
        rw [harith]
      · intro hnone
        rw [collectSpec_zero] at hnone
        exact absurd hnone (by simp)
    · have hlt : st.dest.length < st.cap := not_le.mp hfull
      rcases collect_entry st hwf hok hlt with ⟨hit, hfl⟩ |
        ⟨evs2, bM, hrib, hwfM, hokM, hneM, hflM, hlen⟩
      · have hloop : collectLoop (f + 1) st = .err (-4) := by
          simp only [collectLoop, hit]
        rw [hfl]
        have hnone : collectSpec [] (st.cap - st.dest.length) = none :=
          collectSpec_nil_pos _ (by omega)
        refine ⟨fun n d hnd => ?_, fun _ => hloop⟩
        rw [hnone] at hnd
        exact absurd hnd (by simp)
      · obtain ⟨hwM1, hwM2, hwM3⟩ := (bufWFB_iff bM).mp hwfM
        have hroom1 : 0 < st.cap - st.dest.length := by omega
        have hplen : (pendingOf bM).length = bM.fullness - bM.offset :=
          pendingOf_length bM hwM2
        have hpcons := pendingOf_cons bM hneM hwM2
        have hk1 : 0 < scanSpec (pendingOf bM) (st.cap - st.dest.length) := by
          rw [hpcons]
          exact scanSpec_pos _ _ _ hroom1
        have hkp : scanSpec (pendingOf bM) (st.cap - st.dest.length)
            ≤ (pendingOf bM).length := scanSpec_le_length _ _
        have hkr : scanSpec (pendingOf bM) (st.cap - st.dest.length)
            ≤ st.cap - st.dest.length := scanSpec_le_room _ _
        obtain ⟨hstep1, hstep2⟩ :=
          collectIter_step st evs2 bM _ _ hrib hwfM hneM hlt rfl rfl
        by_cases hlast : ((pendingOf bM).take
            (scanSpec (pendingOf bM) (st.cap - st.dest.length))).getLastD 0
            = REMOTE_EOM
        · have hit := hstep1 hlast
          have hloop : collectLoop (f + 1) st
              = .ok ((st.dest.length
                  + scanSpec (pendingOf bM) (st.cap - st.dest.length) - 1 : Nat) : Int)
                ((st.dest ++ (pendingOf bM).take
                  (scanSpec (pendingOf bM) (st.cap - st.dest.length))).dropLast ++ [0]) := by
            simp only [collectLoop, hit]
          have hdecomp := span_eom_decomp (pendingOf bM) _ hk1 hkp hlast
          have hsno : ∀ x ∈ (pendingOf bM).take
              (scanSpec (pendingOf bM) (st.cap - st.dest.length) - 1),
              x ≠ REMOTE_EOM :=
            fun x hx => scanSpec_prefix_no_eom (pendingOf bM) _ x hx
          have hslen : ((pendingOf bM).take
              (scanSpec (pendingOf bM) (st.cap - st.dest.length) - 1)).length
              = scanSpec (pendingOf bM) (st.cap - st.dest.length) - 1 := by
            rw [List.length_take]
            omega
          have hflat : flatC st
              = (pendingOf bM).take
                  (scanSpec (pendingOf bM) (st.cap - st.dest.length) - 1)
                ++ REMOTE_EOM
                :: ((pendingOf bM).drop
                      (scanSpec (pendingOf bM) (st.cap - st.dest.length))
                    ++ (evs2.map evPayload).flatten) := by
            rw [← hflM]
            conv_lhs =>
              rw [← List.take_append_drop
                (scanSpec (pendingOf bM) (st.cap - st.dest.length)) (pendingOf bM)]
            rw [hdecomp]
            simp [List.append_assoc]
          have hcs : collectSpec (flatC st) (st.cap - st.dest.length)
              = some ((pendingOf bM).take
                  (scanSpec (pendingOf bM) (st.cap - st.dest.length) - 1) |>.length,
                (pendingOf bM).take
                  (scanSpec (pendingOf bM) (st.cap - st.dest.length) - 1) ++ [0]) := by
            rw [hflat]
            exact collectSpec_eom _ _ _ hsno (by omega)
          constructor
          · intro n d hnd
            rw [hcs] at hnd
            injection hnd with hnd
            have hn : ((pendingOf bM).take
                (scanSpec (pendingOf bM) (st.cap - st.dest.length) - 1)).length = n :=
              congrArg Prod.fst hnd
            have hd : (pendingOf bM).take
                (scanSpec (pendingOf bM) (st.cap - st.dest.length) - 1) ++ [0] = d :=
              congrArg Prod.snd hnd
            rw [hloop, ← hn, ← hd]
            have hsplit : (st.dest ++ (pendingOf bM).take
                (scanSpec (pendingOf bM) (st.cap - st.dest.length))).dropLast
                = st.dest ++ (pendingOf bM).take
                    (scanSpec (pendingOf bM) (st.cap - st.dest.length) - 1) := by
              rw [hdecomp, ← List.append_assoc, List.dropLast_concat]
            rw [hsplit, hslen]
            have harith : st.dest.length
                + scanSpec (pendingOf bM) (st.cap - st.dest.length) - 1
                = st.dest.length
                  + (scanSpec (pendingOf bM) (st.cap - st.dest.length) - 1) := by
              omega
            rw [harith, List.append_assoc]
          · intro hnone
            rw [hcs] at hnone
            exact absurd hnone (by simp)
        · have hit := hstep2 hlast
          have hloop : collectLoop (f + 1) st
              = collectLoop f ⟨evs2, ⟨bM.buf, bM.fullness, bM.offset
                  + scanSpec (pendingOf bM) (st.cap - st.dest.length)⟩,
                st.overrun, st.dest ++ (pendingOf bM).take
                  (scanSpec (pendingOf bM) (st.cap - st.dest.length)), st.cap⟩ := by
            simp only [collectLoop, hit]
          obtain ⟨hnoeom, hkmin⟩ := span_no_eom (pendingOf bM) _ hk1 hkp hlast
          have hspanlen : ((pendingOf bM).take
              (scanSpec (pendingOf bM) (st.cap - st.dest.length))).length
              = scanSpec (pendingOf bM) (st.cap - st.dest.length) := by
            rw [List.length_take]
            omega
          set k := scanSpec (pendingOf bM) (st.cap - st.dest.length) with hkdef
          set st2 : CState := ⟨evs2, ⟨bM.buf, bM.fullness, bM.offset + k⟩,
            st.overrun, st.dest ++ (pendingOf bM).take k, st.cap⟩ with hst2
          have hwf2 : bufWFB st2.bst = true := by
            rw [bufWFB_iff]
            refine ⟨?_, hwM2, hwM3⟩
            show bM.offset + k ≤ bM.fullness
            omega
          have hd2 : st2.dest.length ≤ st2.cap := by
            show (st.dest ++ (pendingOf bM).take k).length ≤ st.cap
            rw [List.length_append, hspanlen]
            omega
          have hb2 : collectBound st2 ≤ f := by
            rw [collectBound] at hb ⊢
            show evs2.length * (st.cap + 1)
              + (st.cap - (st.dest ++ (pendingOf bM).take k).length) + 1 ≤ f
            rw [List.length_append, hspanlen]
            rcases hlen with h | ⟨h1, _⟩
            · have hmul : st.events.length * (st.cap + 1)
                  = evs2.length * (st.cap + 1) + (st.cap + 1) := by
                rw [← h]
                ring
              omega
            · rw [h1]
              omega
          have hflat2 : flatC st2 = (pendingOf bM).drop k
              ++ (evs2.map evPayload).flatten := by
            show pendingOf ⟨bM.buf, bM.fullness, bM.offset + k⟩
              ++ (evs2.map evPayload).flatten = _
            rw [pendingOf_advance]
          have hroom2 : st2.cap - st2.dest.length
              = (st.cap - st.dest.length) - k := by
            show st.cap - (st.dest ++ (pendingOf bM).take k).length = _
            rw [List.length_append, hspanlen]
            omega
          have hshift : collectSpec (flatC st) (st.cap - st.dest.length)
              = match collectSpec (flatC st2) ((st.cap - st.dest.length) - k) with
                | some (n, d) => some (k + n, (pendingOf bM).take k ++ d)
                | none => none := by
            rw [← hflM]
            conv_lhs => rw [← List.take_append_drop k (pendingOf bM)]
            rw [List.append_assoc]
            rw [collectSpec_append_no_eom _ _ _ hnoeom
              (by rw [hspanlen]; exact hkr)]
            rw [hspanlen, hflat2]
          obtain ⟨ihs, ihn⟩ := ih st2 hwf2 hokM hd2 hb2
          constructor
          · intro n d hnd
            rw [hshift] at hnd
            cases hi : collectSpec (flatC st2) ((st.cap - st.dest.length) - k) with
            | none =>
              rw [hi] at hnd
              exact absurd hnd (by simp)
            | some nd2 =>
              cases nd2 with
              | mk n2 d2 =>
                rw [hi] at hnd
                simp only at hnd
                injection hnd with hnd
                have hn : k + n2 = n := congrArg Prod.fst hnd
                have hd : (pendingOf bM).take k ++ d2 = d := congrArg Prod.snd hnd
                have hres := ihs n2 d2 (by rw [hroom2]; exact hi)
                rw [hloop, hres]
                show ReadOut.ok (((st.dest ++ (pendingOf bM).take k).length + n2 : Nat) : Int)
                    ((st.dest ++ (pendingOf bM).take k) ++ d2)
                  = ReadOut.ok ((st.dest.length + n : Nat) : Int) (st.dest ++ d)
                rw [List.length_append, hspanlen, List.append_assoc, hd]
                have : st.dest.length + k + n2 = st.dest.length + n := by omega
                rw [this]
          · intro hnone
            rw [hshift] at hnone
            cases hi : collectSpec (flatC st2) ((st.cap - st.dest.length) - k) with
            | none =>
              rw [hloop]
              exact ihn (by rw [hroom2]; exact hi)
            | some nd2 =>
              rw [hi] at hnone
              cases nd2 with
              | mk n2 d2 => exact absurd hnone (by simp)

/-! ### platform_buffer_read against the flat-stream reference semantics -/

theorem pendingOf_initial : pendingOf initialBufState = [] := rfl

theorem seekSpec_eq_none_iff : ∀ s : List Nat,
    seekSpec s = none ↔ REMOTE_RESP ∉ s := by
  intro s
  induction s with
  | nil => simp [seekSpec]
  | cons b rest ih =>
    by_cases hb : b = REMOTE_RESP
    · subst hb
      simp [seekSpec]
    · rw [seekSpec_cons, if_neg hb, ih]
      constructor
      · intro h hm
        rcases List.mem_cons.mp hm with he | hm2
        · exact hb he.symm
        · exact h hm2
      · intro h hm
        exact h (List.mem_cons_of_mem b hm)

theorem seekSpec_append_no_resp : ∀ (noise s : List Nat),
    REMOTE_RESP ∉ noise → seekSpec (noise ++ s) = seekSpec s := by
  intro noise
  induction noise with
  | nil => intro s _; rfl
  | cons b rest ih =>
    intro s h
    have hb : b ≠ REMOTE_RESP := by
      intro hc
      exact h (by rw [hc]; exact List.mem_cons_self _ _)
    show seekSpec (b :: (rest ++ s)) = _
    rw [seekSpec_cons, if_neg hb]
    exact ih s (fun hm => h (List.mem_cons_of_mem _ hm))

theorem platform_buffer_read_flat (fuel : Nat) (events : List SelectOutcome)
    (b : BufSt) (cap : Nat) (hwf : bufWFB b = true)
    (hok : chunksOk events = true)
    (hfuel : readBound events b cap ≤ fuel) :
    platform_buffer_read fuel events b cap
      = flatRead (pendingOf b ++ (events.map evPayload).flatten) cap := by
  have hsb : seekBound ⟨events, b, false⟩ ≤ fuel := by
    rw [readBound] at hfuel
    omega
  have hflatS0 : flatS ⟨events, b, false⟩
      = pendingOf b ++ (events.map evPayload).flatten := rfl
  obtain ⟨hnone, hsome⟩ := seekLoop_sim fuel ⟨events, b, false⟩ hwf hok hsb
  cases hspec : seekSpec (pendingOf b ++ (events.map evPayload).flatten) with
  | none =>
    obtain ⟨st2, h2⟩ := hnone (by rw [hflatS0, hspec])
    simp only [platform_buffer_read, h2, flatRead, hspec]
  | some body =>
    obtain ⟨st2, hsl, hwf2, hok2, hflat2, _, hlen2⟩ :=
      hsome body (by rw [hflatS0, hspec])
    simp only [platform_buffer_read, hsl]
    have hdc : (⟨st2.events, st2.bst, st2.overrun, [], cap⟩ : CState).dest.length
        ≤ cap := Nat.zero_le _
    have hbc : collectBound ⟨st2.events, st2.bst, st2.overrun, [], cap⟩ ≤ fuel := by
      rw [collectBound]
      show st2.events.length * (cap + 1) + (cap - List.length []) + 1 ≤ fuel
      rw [readBound] at hfuel
      have hnl : st2.events.length * (cap + 1) ≤ events.length * (cap + 1) :=
        Nat.mul_le_mul_right _ hlen2
      simp only [List.length_nil]
      omega
    obtain ⟨ihs, ihn⟩ := collectLoop_sim fuel
      ⟨st2.events, st2.bst, st2.overrun, [], cap⟩ hwf2 hok2 hdc hbc
    have hflatc : flatC ⟨st2.events, st2.bst, st2.overrun, [], cap⟩ = body :=
      hflat2
    simp only [flatRead, hspec]
    cases hcs : collectSpec body cap with
    | none =>
      have hres := ihn (by rw [hflatc]; exact hcs)
      rw [hres]
    | some nd =>
      cases nd with
      | mk n d =>
        have hres := ihs n d (by rw [hflatc]; exact hcs)
        rw [hres]
        show ReadOut.ok ((List.length [] + n : Nat) : Int) (List.nil ++ d)
          = ReadOut.ok ((n : Nat) : Int) d
        simp

theorem bufWFB_initial : bufWFB initialBufState = true := by
  rw [bufWFB_iff]
  refine ⟨Nat.le_refl 0, Nat.zero_le _, ?_⟩
  simp [initialBufState]

theorem chunkEvents_payload (c : List (List Nat)) :
    ((chunkEvents c).map evPayload).flatten = c.flatten := by
  have hmap : (chunkEvents c).map evPayload = c := by
    induction c with
    | nil => rfl
    | cons bs rest ih =>
      show evPayload (.ready ((bs.length : Int)) bs)
        :: (chunkEvents rest).map evPayload = bs :: rest
      rw [ih]
      rfl
  rw [hmap]

theorem chunksOk_chunkEvents (c : List (List Nat)) (h : chunksWFB c = true) :
    chunksOk (chunkEvents c) = true := by
  rw [chunksOk_iff]
  intro ev hev
  rw [chunkEvents] at hev
  obtain ⟨bs, hbs, rfl⟩ := List.mem_map.mp hev
  have hc := (List.all_eq_true.mp h) bs hbs
  simp only [Bool.and_eq_true, decide_eq_true_eq] at hc
  simp only [evOkB, Bool.and_eq_true, decide_eq_true_eq]
  exact ⟨⟨trivial, hc.1⟩, hc.2⟩

/-! ### Claim theorems -/

/-- Claim C1, counterexample.  For the scenario of a single refill
delivering `[marker_start, 65, 66, marker_end]` into a fresh buffer with
destination capacity 10, platform_buffer_read does not return 4 with the
destination holding `[65, 66, marker_end]` as the claim states: it returns
2, and the destination holds `[65, 66, 0]` — the end marker's position is
overwritten with a NUL before returning, and the returned count excludes
the marker. -/
theorem C1_counterexample :
    platform_buffer_read 100
        [.ready 4 [REMOTE_RESP, 65, 66, REMOTE_EOM]] initialBufState 10
      ≠ .ok 4 [65, 66, REMOTE_EOM]
    ∧ platform_buffer_read 100
        [.ready 4 [REMOTE_RESP, 65, 66, REMOTE_EOM]] initialBufState 10
      = .ok 2 [65, 66, 0] := by
  constructor
  · decide
  · decide

/-- Claim C1, amended.  For the scenario `[marker_start, 'A', 'B',
marker_end]` in one refill with destination capacity 10, the call succeeds
the moment the end-of-message marker byte is copied: it then overwrites the
marker position in the destination with 0 and returns the number of bytes
written before the marker — here 2, with the destination holding
`[65, 66, 0]`. -/
theorem C1_theorem :
    platform_buffer_read 100
        [.ready 4 [REMOTE_RESP, 65, 66, REMOTE_EOM]] initialBufState 10
      = .ok 2 [65, 66, 0] := by
  decide

/-- Claim C5: if the destination of size `cap` is completely filled before
any end-of-message marker appears after the start marker, the call returns
exactly `cap` and no marker byte is present among the `cap` bytes written.
Stated over any refill environment whose well-formed refills deliver
`noise ++ marker :: body` with no marker in the noise, no end marker among
the first `cap` bytes of the body, and at least `cap` body bytes. -/
theorem C5_theorem (fuel : Nat) (events : List SelectOutcome)
    (noise body : List Nat) (cap : Nat)
    (hok : chunksOk events = true)
    (hstream : (events.map evPayload).flatten = noise ++ REMOTE_RESP :: body)
    (hnoise : REMOTE_RESP ∉ noise)
    (hlen : cap ≤ body.length)
    (hnoeom : ∀ x ∈ body.take cap, x ≠ REMOTE_EOM)
    (hfuel : readBound events initialBufState cap ≤ fuel) :
    platform_buffer_read fuel events initialBufState cap
      = .ok ((cap : Nat) : Int) (body.take cap)
    ∧ REMOTE_EOM ∉ body.take cap := by
  constructor
  · rw [platform_buffer_read_flat fuel events initialBufState cap
      bufWFB_initial hok hfuel, pendingOf_initial, List.nil_append, hstream]
    have hseek : seekSpec (noise ++ REMOTE_RESP :: body) = some body := by
      rw [seekSpec_append_no_resp _ _ hnoise, seekSpec_cons, if_pos rfl]
    have hsl : (body.take cap).length = cap := by
      rw [List.length_take]
      omega
    have hcs : collectSpec body cap = some (cap, body.take cap) := by
      conv_lhs => rw [← List.take_append_drop cap body]
      have hfill := collectSpec_fill (body.take cap) (body.drop cap) hnoeom
      rw [hsl] at hfill
      exact hfill
    simp only [flatRead, hseek, hcs]
  · intro hm
    exact hnoeom _ hm rfl

/-- Claim C5, witness: one refill delivering `[7, marker, 65, 66]` with
destination capacity 2 — the destination fills with `[65, 66]` before any
end marker and the call returns 2. -/
theorem C5_witness :
    platform_buffer_read 4200 [.ready 4 [7, REMOTE_RESP, 65, 66]]
        initialBufState 2
      = .ok 2 [65, 66]
    ∧ REMOTE_EOM ∉ [65, 66] := by
  have h := C5_theorem 4200 [.ready 4 [7, REMOTE_RESP, 65, 66]]
    [7] [65, 66] 2 (by decide) (by decide) (by decide) (by decide)
    (by decide) (by decide)
  exact h

/-- Claim C6: the result of platform_buffer_read is invariant under how the
byte stream is chunked into refills — two partitions of the same byte
sequence into (nonempty, capacity-bounded) refill chunks give the same
return value and the same destination contents, both equal to the
flat-stream reference; and bytes preceding the start marker never affect
the result. -/
theorem C6_theorem (f1 f2 : Nat) (c1 c2 : List (List Nat)) (cap : Nat)
    (noise : List Nat)
    (h1 : chunksWFB c1 = true) (h2 : chunksWFB c2 = true)
    (hj : c1.flatten = c2.flatten)
    (hf1 : readBound (chunkEvents c1) initialBufState cap ≤ f1)
    (hf2 : readBound (chunkEvents c2) initialBufState cap ≤ f2)
    (hnoise : REMOTE_RESP ∉ noise) :
    platform_buffer_read f1 (chunkEvents c1) initialBufState cap
      = platform_buffer_read f2 (chunkEvents c2) initialBufState cap
    ∧ platform_buffer_read f1 (chunkEvents c1) initialBufState cap
      = flatRead c1.flatten cap
    ∧ flatRead (noise ++ c1.flatten) cap = flatRead c1.flatten cap := by
  have e1 : platform_buffer_read f1 (chunkEvents c1) initialBufState cap
      = flatRead c1.flatten cap := by
    rw [platform_buffer_read_flat f1 (chunkEvents c1) initialBufState cap
      bufWFB_initial (chunksOk_chunkEvents c1 h1) hf1, pendingOf_initial,
      List.nil_append, chunkEvents_payload]
  have e2 : platform_buffer_read f2 (chunkEvents c2) initialBufState cap
      = flatRead c2.flatten cap := by
    rw [platform_buffer_read_flat f2 (chunkEvents c2) initialBufState cap
      bufWFB_initial (chunksOk_chunkEvents c2 h2) hf2, pendingOf_initial,
      List.nil_append, chunkEvents_payload]
  refine ⟨?_, e1, ?_⟩
  · rw [e1, e2, hj]
  · rw [flatRead, flatRead, seekSpec_append_no_resp _ _ hnoise]

/-- Claim C6, witness: the spec's scenario — two refills
`[marker_start, 65]` then `[66, marker_end]` versus the single refill
`[marker_start, 65, 66, marker_end]`, destination capacity 10, preceded or
not by noise bytes `[7, 8]`. -/
theorem C6_witness :
    platform_buffer_read 9000
        (chunkEvents [[REMOTE_RESP, 65], [66, REMOTE_EOM]])
        initialBufState 10
      = platform_buffer_read 9000
          (chunkEvents [[REMOTE_RESP, 65, 66, REMOTE_EOM]])
          initialBufState 10
    ∧ platform_buffer_read 9000
        (chunkEvents [[REMOTE_RESP, 65], [66, REMOTE_EOM]])
        initialBufState 10
      = flatRead ([[REMOTE_RESP, 65], [66, REMOTE_EOM]] : List (List Nat)).flatten 10
    ∧ flatRead ([7, 8] ++ ([[REMOTE_RESP, 65], [66, REMOTE_EOM]] : List (List Nat)).flatten) 10
      = flatRead ([[REMOTE_RESP, 65], [66, REMOTE_EOM]] : List (List Nat)).flatten 10 := by
  exact C6_theorem 9000 9000 [[REMOTE_RESP, 65], [66, REMOTE_EOM]]
    [[REMOTE_RESP, 65, 66, REMOTE_EOM]] 10 [7, 8] (by decide) (by decide)
    (by decide) (by decide) (by decide) (by decide)

/-- Claim C10: with a zero-length destination, platform_buffer_read does
not return immediately — it still drains the stream up to and including the
first start-of-response marker, refilling as needed and propagating a
refill failure, and only then returns 0 having written nothing.  The final
conjunct shows a refill error (negative `read`) reached with `cap = 0`:
the call returns that error rather than 0. -/
theorem C10_theorem (fuel : Nat) (events : List SelectOutcome) (b : BufSt)
    (hwf : bufWFB b = true) (hok : chunksOk events = true)
    (hfuel : readBound events b 0 ≤ fuel) :
    (REMOTE_RESP ∈ pendingOf b ++ (events.map evPayload).flatten →
       platform_buffer_read fuel events b 0 = .ok 0 [])
    ∧ (REMOTE_RESP ∉ pendingOf b ++ (events.map evPayload).flatten →
       platform_buffer_read fuel events b 0 = .err (-4))
    ∧ platform_buffer_read 10 [.ready (-1) []] initialBufState 0
        = .err (-6) := by
  have hflat := platform_buffer_read_flat fuel events b 0 hwf hok hfuel
  refine ⟨?_, ?_, by decide⟩
  · intro hmem
    rw [hflat]
    cases hspec : seekSpec (pendingOf b ++ (events.map evPayload).flatten) with
    | none =>
      rw [seekSpec_eq_none_iff] at hspec
      exact absurd hmem hspec
    | some body =>
      simp only [flatRead, hspec, collectSpec_zero]
      rfl
  · intro hmem
    rw [hflat]
    have hspec : seekSpec (pendingOf b ++ (events.map evPayload).flatten)
        = none := (seekSpec_eq_none_iff _).mpr hmem
    simp only [flatRead, hspec]

/-- Claim C10, witness: with destination length 0 and the marker arriving
only via a refill, the call performs the refill, consumes through the
marker, and returns 0 with nothing written; with no marker ever arriving
it times out instead of returning. -/
theorem C10_witness :
    platform_buffer_read 4200 [.ready 1 [REMOTE_RESP]] initialBufState 0
      = .ok 0 []
    ∧ platform_buffer_read 4200 [.ready 1 [9]] initialBufState 0
      = .err (-4) := by
  constructor
  · exact (C10_theorem 4200 [.ready 1 [REMOTE_RESP]] initialBufState
      bufWFB_initial (by decide) (by decide)).1 (by decide)
  · exact (C10_theorem 4200 [.ready 1 [9]] initialBufState
      bufWFB_initial (by decide) (by decide)).2.1 (by decide)

/-- Claim C3, counterexample.  A refill whose bounded wait reports data
ready but whose `read` then returns zero bytes is not treated as fatal:
bmda_read_more_data returns 0 (success) and leaves the buffer empty
(`fullness = 0`), contradicting the claim that a zero-byte read after
readiness fails with TransportClosed/ReadFailed. -/
theorem C3_counterexample :
    bmda_read_more_data (.ready 0 []) ⟨[1, 2, 3], 3, 3⟩
      = (0, ⟨[1, 2, 3], 0, 0⟩)
    ∧ ¬ ((bmda_read_more_data (.ready 0 []) ⟨[1, 2, 3], 3, 3⟩).1 < 0) := by
  constructor
  · rfl
  · decide

/-- Claim C3, amended.  Only a negative `read` result after the wait
reports data ready is fatal (ReadFailed, -6, buffer untouched); a zero-byte
read is reported as success (return 0) with an empty buffer
(`fullness = 0`, `offset = 0`). -/
theorem C3_theorem (res : Int) (data : List Nat) (b : BufSt) :
    (res < 0 → bmda_read_more_data (.ready res data) b = (-6, b))
    ∧ ((bmda_read_more_data (.ready res data) b).1 < 0 ↔ res < 0)
    ∧ (bmda_read_more_data (.ready 0 data) b).1 = 0
    ∧ (bmda_read_more_data (.ready 0 data) b).2.fullness = 0 := by
  refine ⟨fun h => ?_, ?_, ?_, ?_⟩
  · rw [bmda_read_more_data, if_pos h]
  · rw [bmda_read_more_data]
    by_cases h : res < 0
    · rw [if_pos h]
      simp [h]
    · rw [if_neg h]
      simp [h]
  · rw [bmda_read_more_data, if_neg (by norm_num : ¬ ((0 : Int) < 0))]
  · rw [bmda_read_more_data, if_neg (by norm_num : ¬ ((0 : Int) < 0))]
    rfl

/-- Claim C3, witness: a negative read result (-1) after readiness fails
with -6 and leaves the buffer state untouched. -/
theorem C3_witness :
    bmda_read_more_data (.ready (-1) [5]) ⟨[9], 1, 0⟩ = (-6, ⟨[9], 1, 0⟩) :=
  (C3_theorem (-1) [5] ⟨[9], 1, 0⟩).1 (by norm_num)

/-- Claim C4, counterexample.  A short write — the transport accepts 1 of
2 requested bytes — does not terminate the process: platform_buffer_write
returns `false` instead of exiting, and it does not return `true` either,
contradicting both the claimed exit on short writes and the claim that
every non-fatal path returns `true`. -/
theorem C4_counterexample :
    platform_buffer_write 1 2 = .ret false
    ∧ platform_buffer_write 1 2 ≠ .exited (-2)
    ∧ platform_buffer_write 1 2 ≠ .ret true := by
  refine ⟨?_, ?_, ?_⟩ <;> decide

/-- Claim C4, amended.  The single transport write is fatal only when it
reports an error (negative result), in which case the process exits with
code -2; otherwise the function returns whether the full buffer was
written, so a short write returns `false` without terminating. -/
theorem C4_theorem (written : Int) (length : Nat) :
    (platform_buffer_write written length = .exited (-2) ↔ written < 0)
    ∧ (platform_buffer_write written length = .ret true
        ↔ 0 ≤ written ∧ written.toNat = length) := by
  rw [platform_buffer_write]
  by_cases h : written < 0
  · rw [if_pos h]
    constructor
    · exact ⟨fun _ => h, fun _ => rfl⟩
    · constructor
      · intro hc
        exact absurd hc (by simp)
      · intro hc
        omega
  · rw [if_neg h]
    constructor
    · constructor
      · intro hc
        exact absurd hc (by simp)
      · intro hc
        omega
    · constructor
      · intro hc
        injection hc with hc
        exact ⟨by omega, of_decide_eq_true hc⟩
      · intro hc
        rw [decide_eq_true hc.2]

/-! ### Invariant preservation (receive-buffer invariant) -/

theorem seekIter_inv_cases (st : SState) (h : SInv st) :
    (∃ st2, (seekIter st = .found st2 ∨ seekIter st = .cont st2) ∧ SInv st2)
      ∨ seekIter st = .fail (-4) ⟨[], st.bst, st.overrun⟩ := by
  obtain ⟨hwf, hok, hov⟩ := h
  by_cases hoe : st.bst.offset = st.bst.fullness
  · cases hev : st.events with
    | nil =>
      right
      exact seekIter_exhausted st hoe hev
    | cons ev rest =>
      left
      have hokev : evOkB ev = true :=
        (chunksOk_iff _).mp hok ev (by rw [hev]; exact List.mem_cons_self ev rest)
      have hokrest : chunksOk rest = true := by
        rw [chunksOk_iff]
        intro x hx
        exact (chunksOk_iff _).mp hok x
          (by rw [hev]; exact List.mem_cons_of_mem ev hx)
      obtain ⟨data, hevr, hpos, hle⟩ := evOkB_elim ev hokev
      rw [hevr] at hev
      obtain ⟨hw1, hw2, hw3⟩ := (bufWFB_iff st.bst).mp hwf
      have hit := seekIter_refill st hoe data rest hev hpos
      have hinv2 : SInv ⟨rest,
          ⟨data ++ st.bst.buf.drop data.length, data.length, 1⟩, st.overrun⟩ := by
        refine ⟨?_, hokrest, hov⟩
        rw [bufWFB_iff]
        refine ⟨?_, ?_, ?_⟩
        · show 1 ≤ data.length
          omega
        · show data.length ≤ (data ++ st.bst.buf.drop data.length).length
          rw [List.length_append]
          omega
        · show (data ++ st.bst.buf.drop data.length).length ≤ READ_BUFFER_LENGTH
          rw [List.length_append, List.length_drop]
          omega
      refine ⟨_, ?_, hinv2⟩
      rw [hit]
      by_cases hresp : (data ++ st.bst.buf.drop data.length).getD 0 0 = REMOTE_RESP
      · left
        rw [if_pos hresp]
      · right
        rw [if_neg hresp]
  · left
    obtain ⟨hw1, hw2, hw3⟩ := (bufWFB_iff st.bst).mp hwf
    have hit := seekIter_consume st hoe hwf
    have hinv2 : SInv ⟨st.events,
        ⟨st.bst.buf, st.bst.fullness, st.bst.offset + 1⟩, st.overrun⟩ := by
      refine ⟨?_, hok, hov⟩
      rw [bufWFB_iff]
      refine ⟨?_, hw2, hw3⟩
      show st.bst.offset + 1 ≤ st.bst.fullness
      have := lt_of_le_of_ne hw1 hoe
      omega
    refine ⟨_, ?_, hinv2⟩
    rw [hit]
    by_cases hresp : st.bst.buf.getD st.bst.offset 0 = REMOTE_RESP
    · left
      rw [if_pos hresp]
    · right
      rw [if_neg hresp]

theorem collectIter_inv_cases (st : CState) (h : CInv st) :
    (∃ v d, collectIter st = .done v d)
    ∨ collectIter st = .fail (-4)
    ∨ (∃ st2, collectIter st = .cont st2 ∧ CInv st2) := by
  obtain ⟨hwf, hok, hov, hdc⟩ := h
  by_cases hfull : st.cap ≤ st.dest.length
  · left
    exact ⟨_, _, by unfold collectIter; rw [if_pos hfull]⟩
  · have hlt := not_le.mp hfull
    rcases collect_entry st hwf hok hlt with ⟨hit, _⟩ |
      ⟨evs2, bM, hrib, hwfM, hokM, hneM, hflM, hlen⟩
    · right; left
      exact hit
    · obtain ⟨hwM1, hwM2, hwM3⟩ := (bufWFB_iff bM).mp hwfM
      have hroom1 : 0 < st.cap - st.dest.length := by omega
      have hplen := pendingOf_length bM hwM2
      have hpcons := pendingOf_cons bM hneM hwM2
      have hk1 : 0 < scanSpec (pendingOf bM) (st.cap - st.dest.length) := by
        rw [hpcons]
        exact scanSpec_pos _ _ _ hroom1
      have hkp := scanSpec_le_length (pendingOf bM) (st.cap - st.dest.length)
      have hkr := scanSpec_le_room (pendingOf bM) (st.cap - st.dest.length)
      obtain ⟨hstep1, hstep2⟩ :=
        collectIter_step st evs2 bM _ _ hrib hwfM hneM hlt rfl rfl
      by_cases hlast : ((pendingOf bM).take
          (scanSpec (pendingOf bM) (st.cap - st.dest.length))).getLastD 0
          = REMOTE_EOM
      · left
        exact ⟨_, _, hstep1 hlast⟩
      · right; right
        refine ⟨_, hstep2 hlast, ?_, hokM, hov, ?_⟩
        · rw [bufWFB_iff]
          refine ⟨?_, hwM2, hwM3⟩
          show bM.offset + scanSpec (pendingOf bM) (st.cap - st.dest.length)
            ≤ bM.fullness
          omega
        · show (st.dest ++ (pendingOf bM).take
            (scanSpec (pendingOf bM) (st.cap - st.dest.length))).length ≤ st.cap
          rw [List.length_append, List.length_take]
          omega

/-- Claim C2, amended.  On every refill environment whose successful
refills deliver at least one byte (and at most the buffer capacity), the
receive-buffer invariant `0 ≤ offset ≤ fullness ≤ capacity` (`SInv`/`CInv`,
which also record that no byte was ever consumed from an index at or past
`fullness`) holds before and after every operation of
platform_buffer_read: the refill itself, every seek-loop iteration
(consume or refill-and-consume, including the failure exits), and every
collection-loop iteration; moreover no iteration reaches the out-of-bounds
(`ub`) or non-terminating (`spin`) behaviours. -/
theorem C2_theorem :
    (∀ ev b, evOkB ev = true → bufWFB b = true →
        bufWFB (bmda_read_more_data ev b).2 = true)
    ∧ (∀ st st2, SInv st →
        (seekIter st = .found st2 ∨ seekIter st = .cont st2) → SInv st2)
    ∧ (∀ st c st2, SInv st → seekIter st = .fail c st2 → SInv st2)
    ∧ (∀ st, SInv st → seekIter st ≠ .ub)
    ∧ (∀ st st2, CInv st → collectIter st = .cont st2 → CInv st2)
    ∧ (∀ st, CInv st → collectIter st ≠ .ub ∧ collectIter st ≠ .spin) := by
  refine ⟨?_, ?_, ?_, ?_, ?_, ?_⟩
  · intro ev b hev hwf
    obtain ⟨data, hevr, hpos, hle⟩ := evOkB_elim ev hev
    subst hevr
    obtain ⟨hw1, hw2, hw3⟩ := (bufWFB_iff b).mp hwf
    rw [bmda_read_more_data, if_neg (by omega : ¬ ((data.length : Int) < 0))]
    rw [bufWFB_iff]
    refine ⟨?_, ?_, ?_⟩
    · show 0 ≤ ((data.length : Int)).toNat
      omega
    · show ((data.length : Int)).toNat ≤ (data ++ b.buf.drop data.length).length
      rw [List.length_append, Int.toNat_ofNat]
      omega
    · show (data ++ b.buf.drop data.length).length ≤ READ_BUFFER_LENGTH
      rw [List.length_append, List.length_drop]
      omega
  · intro st st2 hinv hor
    rcases seekIter_inv_cases st hinv with ⟨st3, hor3, hinv3⟩ | hfail
    · rcases hor with h | h <;> rcases hor3 with h3 | h3
      · have hee := h.symm.trans h3
        injection hee with hee
        rw [hee]
        exact hinv3
      · have hee := h.symm.trans h3
        simp at hee
      · have hee := h.symm.trans h3
        simp at hee
      · have hee := h.symm.trans h3
        injection hee with hee
        rw [hee]
        exact hinv3
    · rcases hor with h | h <;>
        · have hee := h.symm.trans hfail
          simp at hee
  · intro st c st2 hinv heq
    rcases seekIter_inv_cases st hinv with ⟨st3, hor3, _⟩ | hfail
    · rcases hor3 with h3 | h3 <;>
        · have hee := heq.symm.trans h3
          simp at hee
    · have hee := heq.symm.trans hfail
      injection hee with he1 he2
      rw [he2]
      exact ⟨hinv.1, rfl, hinv.2.2⟩
  · intro st hinv hub
    rcases seekIter_inv_cases st hinv with ⟨st3, hor3, _⟩ | hfail
    · rcases hor3 with h3 | h3 <;>
        · have hee := hub.symm.trans h3
          simp at hee
    · have hee := hub.symm.trans hfail
      simp at hee
  · intro st st2 hinv heq
    rcases collectIter_inv_cases st hinv with ⟨v, d, hd⟩ | hf | ⟨st3, h3, hinv3⟩
    · have hee := heq.symm.trans hd
      simp at hee
    · have hee := heq.symm.trans hf
      simp at hee
    · have hee := heq.symm.trans h3
      injection hee with hee
      rw [hee]
      exact hinv3
  · intro st hinv
    rcases collectIter_inv_cases st hinv with ⟨v, d, hd⟩ | hf | ⟨st3, h3, _⟩
    · rw [hd]
      exact ⟨by simp, by simp⟩
    · rw [hf]
      exact ⟨by simp, by simp⟩
    · rw [h3]
      exact ⟨by simp, by simp⟩

/-- Claim C2, counterexample.  Starting from a well-formed empty buffer,
a refill that reports data ready but delivers zero bytes is accepted as
success, after which the seek loop consumes a byte from index 0 anyway:
the resulting state has `offset = 1 > fullness = 0`, violating the
invariant `offset ≤ fullness`, and the overrun flag records that a byte at
an index at or past `fullness` was consumed despite the refill. -/
theorem C2_counterexample :
    bufWFB zeroByteRefillStart.bst = true
    ∧ seekIter zeroByteRefillStart = .cont zeroByteRefillResult
    ∧ zeroByteRefillResult.bst.fullness < zeroByteRefillResult.bst.offset
    ∧ zeroByteRefillResult.overrun = true := by
  refine ⟨bufWFB_initial, rfl, by decide, rfl⟩

/-- Claim C2, witness: one consuming seek iteration from a well-formed
state with two buffered bytes preserves the invariant. -/
theorem C2_witness :
    SInv ⟨[], ⟨List.replicate READ_BUFFER_LENGTH 0, 2, 2⟩, false⟩ := by
  have hbuf : bufWFB ⟨List.replicate READ_BUFFER_LENGTH 0, 2, 1⟩ = true := by
    rw [bufWFB_iff]
    refine ⟨by decide, ?_, ?_⟩
    · show (2 : Nat) ≤ (List.replicate READ_BUFFER_LENGTH 0).length
      rw [List.length_replicate]
      decide
    · show (List.replicate READ_BUFFER_LENGTH 0).length ≤ READ_BUFFER_LENGTH
      rw [List.length_replicate]
  exact C2_theorem.2.1 ⟨[], ⟨List.replicate READ_BUFFER_LENGTH 0, 2, 1⟩, false⟩
    ⟨[], ⟨List.replicate READ_BUFFER_LENGTH 0, 2, 2⟩, false⟩
    ⟨hbuf, rfl, rfl⟩ (Or.inr rfl)

/-! ### Endpoint resolution claims -/

theorem gdbCandidates_length_le (entries : List (List Char))
    (hint : Option (List Char)) :
    (gdbCandidates entries hint).length
      ≤ entries.countP device_is_bmp_gdb_port := by
  rw [gdbCandidates, ← List.countP_eq_length_filter]
  apply List.countP_mono_left
  intro x _ hx
  rw [Bool.and_eq_true] at hx
  exact hx.1

theorem gdbCandidates_none (entries : List (List Char)) :
    gdbCandidates entries none = gdbPorts entries := by
  rw [gdbCandidates, gdbPorts]
  apply List.filter_congr
  intro x _
  simp

/-- Claim C7: with no explicit device path, resolution fails with
NoDeviceFound when zero names pass the device-identity filter; succeeds
with the (single) matching device path when exactly one candidate remains
after all filtering; fails with AmbiguousDevice listing the identity-filter
candidates when two or more remain with no serial hint; and succeeds if and
only if exactly one candidate remains. -/
theorem C7_theorem (entries : List (List Char)) (hint : Option (List Char)) :
    (entries.countP device_is_bmp_gdb_port = 0 →
       serial_open_resolve none hint (some entries) = .noDeviceFound)
    ∧ ((gdbCandidates entries hint).length = 1 →
       serial_open_resolve none hint (some entries)
         = .ok (DEVICE_BY_ID ++ ((gdbCandidates entries hint).getLastD []).take 4076))
    ∧ (hint = none → 2 ≤ (gdbPorts entries).length →
       serial_open_resolve none hint (some entries)
         = .ambiguousDevice (gdbPorts entries))
    ∧ ((∃ n, serial_open_resolve none hint (some entries) = .ok n)
       ↔ (gdbCandidates entries hint).length = 1) := by
  have hA : entries.countP device_is_bmp_gdb_port = 0 →
      serial_open_resolve none hint (some entries) = .noDeviceFound := by
    intro h
    simp only [serial_open_resolve]
    rw [if_pos h]
  have hB : (gdbCandidates entries hint).length = 1 →
      serial_open_resolve none hint (some entries)
        = .ok (DEVICE_BY_ID ++ ((gdbCandidates entries hint).getLastD []).take 4076) := by
    intro h1
    have hle := gdbCandidates_length_le entries hint
    have htot : ¬ entries.countP device_is_bmp_gdb_port = 0 := by omega
    simp only [serial_open_resolve]
    rw [if_neg htot, if_neg (by omega : ¬ ((gdbCandidates entries hint).length ≠ 1))]
  refine ⟨hA, hB, ?_, ?_⟩
  · intro hnone h2
    subst hnone
    have hcand := gdbCandidates_none entries
    have htot : ¬ entries.countP device_is_bmp_gdb_port = 0 := by
      rw [List.countP_eq_length_filter]
      show ¬ (gdbPorts entries).length = 0
      omega
    have hne1 : (gdbCandidates entries none).length ≠ 1 := by
      rw [hcand]
      omega
    simp only [serial_open_resolve]
    rw [if_neg htot, if_pos hne1]
  · constructor
    · rintro ⟨n, hn⟩
      by_cases h0 : entries.countP device_is_bmp_gdb_port = 0
      · rw [hA h0] at hn
        exact absurd hn (by simp)
      · by_cases hm : (gdbCandidates entries hint).length = 1
        · exact hm
        · exfalso
          simp only [serial_open_resolve] at hn
          rw [if_neg h0, if_pos (by omega : (gdbCandidates entries hint).length ≠ 1)] at hn
          cases hint with
          | none => exact absurd hn (by simp)
          | some s => exact absurd hn (by simp)
    · intro h1
      exact ⟨_, hB h1⟩

/-- Claim C7, witness: an empty directory gives NoDeviceFound; a directory
with exactly one matching device name resolves to that device's path; two
matching names with no hint give AmbiguousDevice listing both. -/
theorem C7_witness :
    serial_open_resolve none none (some []) = .noDeviceFound
    ∧ serial_open_resolve none none
        (some ["usb-Black_Magic_Debug_Black_Magic_Probe_E2C0C4C6-if00".toList])
      = .ok (DEVICE_BY_ID
          ++ ((gdbCandidates
                ["usb-Black_Magic_Debug_Black_Magic_Probe_E2C0C4C6-if00".toList]
                none).getLastD []).take 4076)
    ∧ serial_open_resolve none none
        (some ["usb-Black_Magic_Debug_Black_Magic_Probe_AAAA-if00".toList,
               "usb-Black_Magic_Debug_Black_Magic_Probe_BBBB-if00".toList])
      = .ambiguousDevice (gdbPorts
          ["usb-Black_Magic_Debug_Black_Magic_Probe_AAAA-if00".toList,
           "usb-Black_Magic_Debug_Black_Magic_Probe_BBBB-if00".toList]) := by
  refine ⟨(C7_theorem [] none).1 (by decide), ?_, ?_⟩
  · have h := C7_theorem
      ["usb-Black_Magic_Debug_Black_Magic_Probe_E2C0C4C6-if00".toList] none
    exact h.2.1 (by decide)
  · have h := C7_theorem
      ["usb-Black_Magic_Debug_Black_Magic_Probe_AAAA-if00".toList,
       "usb-Black_Magic_Debug_Black_Magic_Probe_BBBB-if00".toList] none
    exact h.2.2.1 rfl (by decide)

/-- Claim C9, counterexample.  serial_open resets the receive-buffer
cursors before attempting to open the resolved device (serial_unix.c lines
278-281): an open attempt whose `open` and network fallback both fail still
resets `fullness`/`offset` from (5, 3) to (0, 0) while returning failure —
contradicting the claim that a failed open attempt leaves them unchanged. -/
theorem C9_counterexample :
    (serial_open (some ['d']) none none false false false
        ⟨List.replicate READ_BUFFER_LENGTH 0, 5, 3⟩).1 = false
    ∧ (serial_open (some ['d']) none none false false false
        ⟨List.replicate READ_BUFFER_LENGTH 0, 5, 3⟩).2
      = ⟨List.replicate READ_BUFFER_LENGTH 0, 0, 0⟩ :=
  ⟨rfl, rfl⟩

/-- Claim C9, amended.  The receive-buffer cursors are reset to
`offset = fullness = 0` exactly when serial_open reaches its open step —
that is, whenever name resolution succeeds — regardless of whether the
subsequent open succeeds; when resolution fails the buffer is left
untouched; and no productive refill ever leaves the buffer empty. -/
theorem C9_theorem :
    (∀ od hint dir openOk netOk attrOk st name,
        serial_open_resolve od hint dir = .ok name →
        (serial_open od hint dir openOk netOk attrOk st).2 = ⟨st.buf, 0, 0⟩)
    ∧ (∀ od hint dir openOk netOk attrOk st,
        (∀ name, serial_open_resolve od hint dir ≠ .ok name) →
        serial_open od hint dir openOk netOk attrOk st = (false, st))
    ∧ (∀ ev b, evOkB ev = true → (bmda_read_more_data ev b).2.fullness ≠ 0) := by
  refine ⟨?_, ?_, ?_⟩
  · intro od hint dir openOk netOk attrOk st name hres
    simp only [serial_open, hres]
    cases openOk <;> cases netOk <;> simp
  · intro od hint dir openOk netOk attrOk st hres
    cases h : serial_open_resolve od hint dir with
    | ok n => exact absurd h (hres n)
    | dirError => simp only [serial_open, h]
    | noDeviceFound => simp only [serial_open, h]
    | serialMismatch c s => simp only [serial_open, h]
    | ambiguousDevice c => simp only [serial_open, h]
  · intro ev b hev
    obtain ⟨data, hevr, hpos, _⟩ := evOkB_elim ev hev
    subst hevr
    rw [bmda_read_more_data, if_neg (by omega : ¬ ((data.length : Int) < 0))]
    show ((data.length : Int)).toNat ≠ 0
    omega

/-- Claim C9, witness: with an explicit device (resolution succeeds) whose
open succeeds, and with a failing directory scan (resolution fails), the
cursors are reset in the first case and untouched in the second. -/
theorem C9_witness :
    (serial_open (some ['d']) none none true false true ⟨[7], 4, 2⟩).2
      = ⟨[7], 0, 0⟩
    ∧ serial_open none none none true false true ⟨[7], 4, 2⟩
      = (false, ⟨[7], 4, 2⟩) := by
  constructor
  · exact C9_theorem.1 (some ['d']) none none true false true ⟨[7], 4, 2⟩
      (['d'].take 4095) rfl
  · exact C9_theorem.2.1 none none none true false true ⟨[7], 4, 2⟩
      (fun name h => by simp [serial_open_resolve] at h)

/-! ### Serial matching (claim C8) -/

theorem begins_with_iff : ∀ (p s : List Char),
    begins_with s p = true ↔ ∃ t, s = p ++ t := by
  intro p
  induction p with
  | nil =>
    intro s
    simp [begins_with]
  | cons b p1 ih =>
    intro s
    cases s with
    | nil =>
      constructor
      · intro h
        simp [begins_with] at h
      · rintro ⟨t, ht⟩
        simp at ht
    | cons a s1 =>
      show (decide (a = b) && begins_with s1 p1) = true ↔ _
      rw [Bool.and_eq_true, decide_eq_true_eq, ih s1]
      constructor
      · rintro ⟨rfl, t, rfl⟩
        exact ⟨t, rfl⟩
      · rintro ⟨t, ht⟩
        injection ht with h1 h2
        exact ⟨h1, t, h2⟩

theorem ends_with_iff (s suf : List Char) :
    ends_with s suf = true ↔ ∃ t, s = t ++ suf := by
  rw [ends_with, begins_with_iff]
  constructor
  · rintro ⟨t, ht⟩
    refine ⟨t.reverse, ?_⟩
    have := congrArg List.reverse ht
    rw [List.reverse_reverse, List.reverse_append] at this
    rw [this, List.reverse_reverse]
  · rintro ⟨t, rfl⟩
    exact ⟨t.reverse, by rw [List.reverse_append]⟩

theorem strrchrPos_eq_none : ∀ (l : List Char) (c : Char),
    strrchrPos l c = none ↔ c ∉ l := by
  intro l c
  induction l with
  | nil => simp [strrchrPos]
  | cons a rest ih =>
    cases h : strrchrPos rest c with
    | some i =>
      simp only [strrchrPos, h]
      constructor
      · intro hc
        exact absurd hc (by simp)
      · intro hno
        exfalso
        have hmem : c ∈ rest := by
          by_contra hc
          rw [← ih] at hc
          rw [h] at hc
          exact absurd hc (by simp)
        exact hno (List.mem_cons_of_mem a hmem)
    | none =>
      simp only [strrchrPos, h]
      by_cases hac : a = c
      · rw [if_pos hac]
        constructor
        · intro hc
          exact absurd hc (by simp)
        · intro hno
          exact absurd (by rw [hac]; exact List.mem_cons_self c rest) hno
      · rw [if_neg hac]
        constructor
        · intro _ hmem
          rcases List.mem_cons.mp hmem with he | hm
          · exact hac he.symm
          · exact (ih.mp h) hm
        · intro _
          rfl

theorem strrchrPos_append_last : ∀ (l r : List Char) (c : Char), c ∉ r →
    strrchrPos (l ++ c :: r) c = some l.length := by
  intro l
  induction l with
  | nil =>
    intro r c h
    show strrchrPos (c :: r) c = some 0
    simp only [strrchrPos, (strrchrPos_eq_none r c).mpr h]
    simp
  | cons a l1 ih =>
    intro r c h
    show strrchrPos (a :: (l1 ++ c :: r)) c = some (l1.length + 1)
    simp only [strrchrPos, ih r c h]

theorem strrchrPos_spec : ∀ (l : List Char) (c : Char) (i : Nat),
    strrchrPos l c = some i →
    ∃ pre post, l = pre ++ c :: post ∧ pre.length = i ∧ c ∉ post := by
  intro l
  induction l with
  | nil =>
    intro c i h
    simp [strrchrPos] at h
  | cons a rest ih =>
    intro c i h
    cases hr : strrchrPos rest c with
    | some j =>
      simp only [strrchrPos, hr] at h
      injection h with h
      obtain ⟨pre, post, hdec, hlen, hno⟩ := ih c j hr
      exact ⟨a :: pre, post, by rw [hdec]; rfl, by simp [hlen, ← h], hno⟩
    | none =>
      simp only [strrchrPos, hr] at h
      by_cases hac : a = c
      · rw [if_pos hac] at h
        injection h with h
        exact ⟨[], rest, by rw [hac]; rfl, h, (strrchrPos_eq_none rest c).mp hr⟩
      · rw [if_neg hac] at h
        exact absurd h (by simp)

theorem device_port_parts (d : List Char)
    (hpass : device_is_bmp_gdb_port d = true) :
    '_' ∈ d ∧ ∃ t, d = t ++ IF00_SUFFIX := by
  rw [device_is_bmp_gdb_port] at hpass
  by_cases hc : (begins_with d BMP_IDSTRING_BLACKSPHERE
      || begins_with d BMP_IDSTRING_BLACKMAGIC
      || begins_with d BMP_IDSTRING_1BITSQUARED) = true
  · rw [if_pos hc] at hpass
    refine ⟨?_, (ends_with_iff d IF00_SUFFIX).mp hpass⟩
    rw [Bool.or_eq_true, Bool.or_eq_true] at hc
    rcases hc with (h | h) | h <;>
      · obtain ⟨t, rfl⟩ := (begins_with_iff _ _).mp h
        refine List.mem_append.mpr (Or.inl ?_)
        decide
  · rw [if_neg hc] at hpass
    exact absurd hpass (by simp)

theorem match_serial_decomp (pre seg hint : List Char) (hns : '_' ∉ seg) :
    match_serial (pre ++ '_' :: (seg ++ IF00_SUFFIX)) hint
      = contains_substring seg hint := by
  have hnr : '_' ∉ seg ++ IF00_SUFFIX := by
    intro hm
    rcases List.mem_append.mp hm with h | h
    · exact hns h
    · exact absurd h (by decide)
  simp only [match_serial, strrchrPos_append_last pre _ '_' hnr]
  have hdrop : (pre ++ '_' :: (seg ++ IF00_SUFFIX)).drop (pre.length + 1)
      = seg ++ IF00_SUFFIX := by
    have hstep := List.drop_left (pre ++ ['_']) (seg ++ IF00_SUFFIX)
    have happ : pre ++ ['_'] ++ (seg ++ IF00_SUFFIX)
        = pre ++ '_' :: (seg ++ IF00_SUFFIX) := (List.append_cons _ _ _).symm
    have hlen1 : (pre ++ ['_']).length = pre.length + 1 := by
      rw [List.length_append]
      rfl
    rw [happ, hlen1] at hstep
    exact hstep
  have hlen : (pre ++ '_' :: (seg ++ IF00_SUFFIX)).length - 5 - (pre.length + 1)
      = seg.length := by
    rw [List.length_append, List.length_cons, List.length_append]
    have hif : IF00_SUFFIX.length = 5 := rfl
    omega
  rw [hdrop, hlen, List.take_left]

/-- Claim C8: for a device name that passes the device-identity filter, a
serial hint matches (match_serial) if and only if it is a substring of the
segment lying between the last underscore in the name and the fixed-width
"-if00" interface suffix — so a hint occurring only elsewhere in the name
(for example in the vendor prefix) does not match. -/
theorem C8_theorem (device hint : List Char)
    (hpass : device_is_bmp_gdb_port device = true) :
    match_serial device hint = true ↔
      ∃ pre seg, device = pre ++ '_' :: (seg ++ IF00_SUFFIX)
        ∧ '_' ∉ seg ∧ contains_substring seg hint = true := by
  obtain ⟨hu, t, hsuf⟩ := device_port_parts device hpass
  constructor
  · intro hm
    cases hpos : strrchrPos device '_' with
    | none =>
      exact absurd hu ((strrchrPos_eq_none device '_').mp hpos)
    | some i =>
      obtain ⟨pre, post, hdec, hlen, hnot⟩ := strrchrPos_spec device '_' i hpos
      have hif : IF00_SUFFIX.length = 5 := rfl
      have hdevlen : device.length = pre.length + 1 + post.length := by
        rw [hdec, List.length_append, List.length_cons]
        omega
      have htlen : t.length = device.length - 5 := by
        rw [hsuf, List.length_append]
        omega
      have hplen5 : 5 ≤ post.length := by
        by_contra hlt
        push_neg at hlt
        have hge : t.length ≤ pre.length := by omega
        have htk : device.take t.length = t := by
          rw [hsuf, List.take_left]
        have htk2 : device.take t.length = pre.take t.length := by
          rw [hdec]
          exact List.take_append_of_le_length hge
        have hpre : pre = t ++ pre.drop t.length := by
          conv_lhs => rw [← List.take_append_drop t.length pre]
          rw [← htk2, htk]
        have heq : t ++ (pre.drop t.length ++ '_' :: post)
            = t ++ IF00_SUFFIX := by
          rw [← List.append_assoc, ← hpre, ← hdec]
          exact hsuf
        have hX := List.append_cancel_left heq
        have hmem : '_' ∈ IF00_SUFFIX := by
          rw [← hX]
          simp
        exact absurd hmem (by decide)
      have hsuffix : post.drop (post.length - 5) = IF00_SUFFIX := by
        have h1 : device.drop (device.length - 5) = IF00_SUFFIX := by
          rw [hsuf]
          have hidx : (t ++ IF00_SUFFIX).length - 5 = t.length := by
            rw [List.length_append]
            omega
          rw [hidx, List.drop_left]
        have h2 : device.drop (device.length - 5)
            = post.drop (post.length - 5) := by
          have hstep := @List.drop_append Char (pre ++ ['_']) post
            (post.length - 5)
          have happ : pre ++ ['_'] ++ post = pre ++ '_' :: post :=
            (List.append_cons _ _ _).symm
          have hlen1 : (pre ++ ['_']).length = pre.length + 1 := by
            rw [List.length_append]
            rfl
          rw [happ, hlen1] at hstep
          rw [hdec]
          have hidx2 : (pre ++ '_' :: post).length - 5
              = pre.length + 1 + (post.length - 5) := by
            rw [List.length_append, List.length_cons]
            omega
          rw [hidx2]
          exact hstep
        rw [← h2, h1]
      have hpost : post = post.take (post.length - 5) ++ IF00_SUFFIX := by
        conv_lhs => rw [← List.take_append_drop (post.length - 5) post]
        rw [hsuffix]
      have hdc : device
          = pre ++ '_' :: (post.take (post.length - 5) ++ IF00_SUFFIX) := by
        rw [hdec]
        rw [← hpost]
      have hnseg : '_' ∉ post.take (post.length - 5) :=
        fun hmem => hnot (List.mem_of_mem_take hmem)
      rw [hdc, match_serial_decomp pre _ hint hnseg] at hm
      exact ⟨pre, post.take (post.length - 5), hdc, hnseg, hm⟩
  · rintro ⟨pre, seg, hdc, hns, hcont⟩
    rw [hdc, match_serial_decomp pre seg hint hns]
    exact hcont

/-- Claim C8, witness: for the device name
`usb-Black_Sphere_Technologies_Black_Magic_Probe_E2C0C4C6-if00` the hint
`E2C0` (a substring of the serial segment `E2C0C4C6`) matches, while the
hint `Black` — present only in the vendor prefix — does not. -/
theorem C8_witness :
    match_serial
        "usb-Black_Sphere_Technologies_Black_Magic_Probe_E2C0C4C6-if00".toList
        "E2C0".toList = true
    ∧ match_serial
        "usb-Black_Sphere_Technologies_Black_Magic_Probe_E2C0C4C6-if00".toList
        "Black".toList = false := by
  constructor
  · exact (C8_theorem _ _ (by decide)).mpr
      ⟨"usb-Black_Sphere_Technologies_Black_Magic_Probe".toList,
       "E2C0C4C6".toList, by decide, by decide, by decide⟩
  · decide
